import Mathlib

set_option maxHeartbeats 1000000

/-!
Verification of the transaction facade of a multi-model document database
(Transaction.cpp and RestDebugHandler.cpp). Shallow embedding: the per-document
CRUD loops, the identity codec, the index planners and the OR-normaliser are
translated into executable Lean definitions; storage-engine primitives and the
cluster RPC layer, which are outside the verified core, appear as explicit
function parameters.
-/

/- Error codes (numeric wire values of the TRI_ERROR_* constants). -/

def TRI_ERROR_NO_ERROR : Nat := 0
def TRI_ERROR_INTERNAL : Nat := 4
def TRI_ERROR_NOT_IMPLEMENTED : Nat := 9
def TRI_ERROR_BAD_PARAMETER : Nat := 10
def TRI_ERROR_ARANGO_CONFLICT : Nat := 1200
def TRI_ERROR_ARANGO_DOCUMENT_NOT_FOUND : Nat := 1202
def TRI_ERROR_ARANGO_COLLECTION_NOT_FOUND : Nat := 1203
def TRI_ERROR_ARANGO_DOCUMENT_HANDLE_BAD : Nat := 1205
def TRI_ERROR_ARANGO_UNIQUE_CONSTRAINT_VIOLATED : Nat := 1210
def TRI_ERROR_ARANGO_DOCUMENT_KEY_BAD : Nat := 1221
def TRI_ERROR_ARANGO_DOCUMENT_TYPE_INVALID : Nat := 1227

/-- VelocyPack slices: self-describing tagged-tree document values. The custom
type carries its head byte (tag) and, for the 0xF3 form, the collection id that
the 8 payload bytes encode in little-endian. -/
inductive VSlice where
  | vnone
  | vnull
  | vbool (b : Bool)
  | vnum (n : Int)
  | vstr (s : String)
  | vcustom (tag : Nat) (cid : Nat)
  | vobj (fields : List (String × VSlice))
  | varr (elems : List VSlice)

/-- Lookup of an attribute inside an object (first matching key). -/
def vObjGet : List (String × VSlice) → String → VSlice
  | [], _ => .vnone
  | (k, v) :: rest, key => if k = key then v else vObjGet rest key

/-- VPackSlice::get on objects; vnone on every other slice type. -/
def VSlice.get : VSlice → String → VSlice
  | .vobj fs, key => vObjGet fs key
  | _, _ => .vnone

def VSlice.isObjectS : VSlice → Bool
  | .vobj _ => true
  | _ => false

def VSlice.isArrayS : VSlice → Bool
  | .varr _ => true
  | _ => false

def VSlice.isStringS : VSlice → Bool
  | .vstr _ => true
  | _ => false

def VSlice.isNoneS : VSlice → Bool
  | .vnone => true
  | _ => false

/-- VPackSlice::copyString, defaulting to the empty string on a non-string
slice (the C++ code only calls it where the slice is known to be a string). -/
def VSlice.copyStringD : VSlice → String
  | .vstr s => s
  | _ => ""

/-- The suffix of a key after its first slash, the whole key when it has
none (the substr(pos+1) step of Transaction::extractKey). -/
def afterFirstSlash (key : String) : String :=
  match key.splitOn "/" with
  | [] => key
  | [_] => key
  | _ :: rest => String.intercalate "/" rest

/-- Transaction::extractKey: the _key attribute of an object (empty unless a
string), the part after the first slash of a plain string, empty otherwise. -/
def transactionExtractKey (slice : VSlice) : String :=
  match slice with
  | .vobj _ =>
    match slice.get "_key" with
    | .vstr k => k
    | _ => ""
  | .vstr key => afterFirstSlash key
  | _ => ""

/-- Head byte of the custom _id encoding. -/
def customIdTag : Nat := 0xf3

/-- Transaction::extractIdString(resolver, slice, base): a literal string _id
is returned as is; a custom-tagged 0xF3 blob is resolved through the name
resolver and glued to the _key found in the slice (or, when the slice is not
an object, in the base). Exceptions of the C++ code become error codes. -/
def transactionExtractIdString (resolver : Nat → String) (slice base : VSlice) :
    Except Nat String :=
  let id := match slice with
    | .vobj _ => slice.get "_id"
    | _ => slice
  match id with
  | .vstr s => .ok s
  | .vcustom tag cid =>
    if tag ≠ customIdTag then .error TRI_ERROR_ARANGO_DOCUMENT_TYPE_INVALID
    else
      let key := match slice with
        | .vobj _ => slice.get "_key"
        | _ =>
          match base with
          | .vobj _ => base.get "_key"
          | _ => .vnone
      match key with
      | .vstr k => .ok (resolver cid ++ "/" ++ k)
      | _ => .error TRI_ERROR_ARANGO_DOCUMENT_TYPE_INVALID
  | _ => .error TRI_ERROR_ARANGO_DOCUMENT_TYPE_INVALID

/-- A document slice carrying a resolvable collection reference and a string
_key: an object whose _id attribute is either the literal string
collection/key or the custom-tagged blob naming the collection id. -/
def wellFormedIdentity (resolver : Nat → String) (slice : VSlice) (cid : Nat)
    (k : String) : Prop :=
  slice.isObjectS = true ∧ slice.get "_key" = .vstr k ∧
    (slice.get "_id" = .vstr (resolver cid ++ "/" ++ k) ∨
      slice.get "_id" = .vcustom customIdTag cid)

/-- Claim C5: for every well-formed document slice carrying a resolvable
collection reference and a string _key, whether the _id is a literal string or
a custom-tagged 0xF3 blob, extractIdString equals the resolved collection
name, a slash, and extractKey of the slice. -/
theorem extractIdString_roundtrip (resolver : Nat → String) (slice base : VSlice)
    (cid : Nat) (k : String) (h : wellFormedIdentity resolver slice cid k) :
    transactionExtractIdString resolver slice base =
      .ok (resolver cid ++ "/" ++ transactionExtractKey slice) := by
  obtain ⟨hobj, hkey, hid⟩ := h
  cases slice with
  | vobj fs =>
    have hek : transactionExtractKey (.vobj fs) = k := by
      simp [transactionExtractKey, hkey]
    rcases hid with hid | hid
    · simp [transactionExtractIdString, hid, hek]
    · simp [transactionExtractIdString, hid, hek, customIdTag, hkey]
  | vnone => simp [VSlice.isObjectS] at hobj
  | vnull => simp [VSlice.isObjectS] at hobj
  | vbool b => simp [VSlice.isObjectS] at hobj
  | vnum n => simp [VSlice.isObjectS] at hobj
  | vstr s => simp [VSlice.isObjectS] at hobj
  | vcustom t c => simp [VSlice.isObjectS] at hobj
  | varr es => simp [VSlice.isObjectS] at hobj

def exampleResolver : Nat → String := fun c => if c = 291 then "users" else "unknown"

def exampleIdSlice : VSlice :=
  .vobj [("_id", .vcustom customIdTag 291), ("_key", .vstr "abc")]

/-- Witness for C5: the concrete slice of round-trip scenario 2 of the spec:
a custom _id blob with collection id 0x123 resolving to users and key abc. -/
theorem extractIdString_roundtrip_witness :
    wellFormedIdentity exampleResolver exampleIdSlice 291 "abc" ∧
      transactionExtractIdString exampleResolver exampleIdSlice .vnone =
        .ok (exampleResolver 291 ++ "/" ++ transactionExtractKey exampleIdSlice) :=
  ⟨⟨rfl, rfl, Or.inr rfl⟩,
    extractIdString_roundtrip exampleResolver exampleIdSlice .vnone 291 "abc"
      ⟨rfl, rfl, Or.inr rfl⟩⟩

/-
Local CRUD pipeline (Transaction::insertLocal, modifyLocal, removeLocal).
The storage-engine primitives document->insert/update/replace/remove are
outside the core and appear as explicit function parameters; the result
builder is a list of VPack objects.
-/

structure OperationOptions where
  waitForSync : Bool
  silent : Bool
  returnNew : Bool
  returnOld : Bool
  ignoreRevs : Bool

/-- An OperationResult: status code, builder payload, per-error-kind counter
map, and the reflected waitForSync bit. -/
structure OperationResult where
  code : Nat
  payload : List VSlice
  countErrorCodes : List (Nat × Nat)
  waitForSync : Bool

/-- Transaction::buildDocumentIdentity: one object with _id, _key, _rev and
optionally _oldRev, old, new. -/
def buildDocumentIdentity (resolver : Nat → String) (cid : Nat) (key : String)
    (rid : VSlice) (oldRid : VSlice) (oldDoc : Option VSlice)
    (newDoc : Option VSlice) : VSlice :=
  .vobj ([("_id", .vstr (resolver cid ++ "/" ++ key)), ("_key", .vstr key), ("_rev", rid)]
    ++ (if oldRid.isNoneS then [] else [("_oldRev", oldRid)])
    ++ (match oldDoc with | some d => [("old", d)] | none => [])
    ++ (match newDoc with | some d => [("new", d)] | none => []))

/-- Increment of the per-error-kind counter map (find-or-emplace). -/
def bumpErrorCount : List (Nat × Nat) → Nat → List (Nat × Nat)
  | [], c => [(c, 1)]
  | (k, n) :: rest, c =>
    if k = c then (k, n + 1) :: rest else (k, n) :: bumpErrorCount rest c

/-- createBabiesError: append an error object to the builder and count the
error kind in the counter map. -/
def createBabiesError (builder : List VSlice) (counts : List (Nat × Nat))
    (errorCode : Nat) : List VSlice × List (Nat × Nat) :=
  (builder ++ [.vobj [("error", .vbool true), ("errorNum", .vnum errorCode)]],
    bumpErrorCount counts errorCode)

/-- The master pointer returned by a successful engine write: the stored
document and its revision slice. -/
structure EngineDoc where
  doc : VSlice
  rev : VSlice

/-- The per-document body of insertLocal: non-objects are rejected, the engine
insert may fail with a code, and on success (unless silent) the document
identity is appended to the builder. -/
def insertWorkForOneDocument (resolver : Nat → String) (cid : Nat)
    (opts : OperationOptions) (eng : VSlice → Except Nat EngineDoc)
    (builder : List VSlice) (value : VSlice) : List VSlice × Nat :=
  if value.isObjectS = false then (builder, TRI_ERROR_ARANGO_DOCUMENT_TYPE_INVALID)
  else
    match eng value with
    | .error res => (builder, res)
    | .ok m =>
      if opts.silent then (builder, TRI_ERROR_NO_ERROR)
      else
        let keyString := (m.doc.get "_key").copyStringD
        (builder ++ [buildDocumentIdentity resolver cid keyString m.rev .vnone none
          (if opts.returnNew then some m.doc else none)], TRI_ERROR_NO_ERROR)

/-- The babies loop of insertLocal: every element is processed; a failing
element is recorded through createBabiesError and the loop continues. -/
def insertLocalLoop (resolver : Nat → String) (cid : Nat) (opts : OperationOptions)
    (eng : VSlice → Except Nat EngineDoc) :
    List VSlice → List VSlice → List (Nat × Nat) → List VSlice × List (Nat × Nat)
  | [], b, counts => (b, counts)
  | v :: vs, b, counts =>
    let r := insertWorkForOneDocument resolver cid opts eng b v
    if r.2 ≠ TRI_ERROR_NO_ERROR then
      let bc := createBabiesError r.1 counts r.2
      insertLocalLoop resolver cid opts eng vs bc.1 bc.2
    else insertLocalLoop resolver cid opts eng vs r.1 counts

/-- The OperationResult of Transaction::insertLocal, before the follower
replication block: for an array the loop collects per-document errors and the
top-level code is reset to NO_ERROR; for a single document the code of the
one work item is returned. -/
def insertLocalResult (resolver : Nat → String) (cid : Nat) (opts : OperationOptions)
    (eng : VSlice → Except Nat EngineDoc) (value : VSlice) : OperationResult :=
  match value with
  | .varr elems =>
    let bc := insertLocalLoop resolver cid opts eng elems [] []
    ⟨TRI_ERROR_NO_ERROR, bc.1, bc.2, opts.waitForSync⟩
  | _ =>
    let r := insertWorkForOneDocument resolver cid opts eng [] value
    ⟨r.2, r.1, [], opts.waitForSync⟩

/-- HTTP status codes of GeneralResponse::ResponseCode. -/
def httpOK : Nat := 200
def httpCreated : Nat := 201
def httpAccepted : Nat := 202
def httpBad : Nat := 400
def httpNotFound : Nat := 404
def httpConflict : Nat := 409
def httpPreconditionFailed : Nat := 412
def httpNotImplemented : Nat := 501

/-- Outcome of one replicated follower request: whether it completed, whether
an answer was received (CL_COMM_RECEIVED), and the HTTP answer code. -/
structure FollowerOutcome where
  done : Bool
  received : Bool
  answerCode : Nat

/-- A follower request counts as good exactly when it completed with status
ACCEPTED or CREATED; every other outcome triggers demotion. -/
def followerGood (r : FollowerOutcome) : Bool :=
  r.done && r.received && (r.answerCode = httpAccepted || r.answerCode = httpCreated)

/-- Modelled from the spec: the follower replication block of insertLocal.
ClusterComm::performRequests is not part of the sources; per the spec a
request is good when it returned ACCEPTED or CREATED, nrGood counts the good
requests, and when some request is not good every follower whose request is
not good is removed from the follower set and logged. Returns the remaining
follower set and the log of dropped followers. -/
def insertLocalReplication (isDBServer : Bool) (followers : List String)
    (outcome : String → FollowerOutcome) : List String × List String :=
  if isDBServer ∧ 0 < followers.length then
    let nrGood := (followers.filter (fun f => followerGood (outcome f))).length
    if nrGood < followers.length then
      (followers.filter (fun f => followerGood (outcome f)),
        followers.filter (fun f => ! followerGood (outcome f)))
    else (followers, [])
  else (followers, [])

/-- Transaction::insertLocal on a shard: the local write result together with
the follower set and demotion log left by the replication block. The
OperationResult is assembled from the local builder, code and counter map
only. -/
def insertLocalFull (resolver : Nat → String) (cid : Nat) (opts : OperationOptions)
    (eng : VSlice → Except Nat EngineDoc) (value : VSlice) (isDBServer : Bool)
    (followers : List String) (outcome : String → FollowerOutcome) :
    OperationResult × List String × List String :=
  let rep := insertLocalReplication isDBServer followers outcome
  (insertLocalResult resolver cid opts eng value, rep.1, rep.2)

/-- Outcome of document->update / document->replace for one document. -/
inductive ModOutcome where
  | ok (m : EngineDoc) (actualRev : VSlice) (previous : VSlice)
  | conflict (actualRev : VSlice) (previous : VSlice)
  | err (code : Nat)

/-- The per-document body of modifyLocal (shared by update and replace, which
differ only in the engine call): conflicts still record the current document
identity unless silent; other errors leave the builder untouched. -/
def modifyWorkForOneDocument (resolver : Nat → String) (cid : Nat)
    (opts : OperationOptions) (eng : VSlice → ModOutcome)
    (builder : List VSlice) (newVal : VSlice) : List VSlice × Nat :=
  if newVal.isObjectS = false then (builder, TRI_ERROR_ARANGO_DOCUMENT_TYPE_INVALID)
  else
    match eng newVal with
    | .conflict actualRev previous =>
      (if opts.silent then builder
        else builder ++ [buildDocumentIdentity resolver cid
          ((newVal.get "_key").copyStringD) actualRev .vnone
          (if opts.returnOld then some previous else none) none],
        TRI_ERROR_ARANGO_CONFLICT)
    | .err code => (builder, code)
    | .ok m actualRev previous =>
      (if opts.silent then builder
        else builder ++ [buildDocumentIdentity resolver cid
          ((newVal.get "_key").copyStringD) m.rev actualRev
          (if opts.returnOld then some previous else none)
          (if opts.returnNew then some m.doc else none)],
        TRI_ERROR_NO_ERROR)

/-- The babies loop of modifyLocal: the first element whose work returns a
non-zero code stops the batch. -/
def modifyLocalLoop (resolver : Nat → String) (cid : Nat) (opts : OperationOptions)
    (eng : VSlice → ModOutcome) : List VSlice → List VSlice → List VSlice × Nat
  | [], b => (b, TRI_ERROR_NO_ERROR)
  | v :: vs, b =>
    let r := modifyWorkForOneDocument resolver cid opts eng b v
    if r.2 ≠ TRI_ERROR_NO_ERROR then (r.1, r.2)
    else modifyLocalLoop resolver cid opts eng vs r.1

/-- The OperationResult of Transaction::modifyLocal. -/
def modifyLocalResult (resolver : Nat → String) (cid : Nat) (opts : OperationOptions)
    (eng : VSlice → ModOutcome) (value : VSlice) : OperationResult :=
  match value with
  | .varr elems =>
    let r := modifyLocalLoop resolver cid opts eng elems []
    ⟨r.2, r.1, [], opts.waitForSync⟩
  | _ =>
    let r := modifyWorkForOneDocument resolver cid opts eng [] value
    ⟨r.2, r.1, [], opts.waitForSync⟩

/-- Outcome of document->remove for one document. -/
inductive RemOutcome where
  | ok (actualRev : VSlice) (previous : VSlice)
  | conflict (actualRev : VSlice) (previous : VSlice)
  | err (code : Nat)

/-- True when the string contains a slash (std::string::find of the key). -/
def containsSlash (s : String) : Bool :=
  decide (2 ≤ (s.splitOn "/").length)

/-- The engine call and result handling shared by the branches of the
removeLocal work item. -/
def removeEngineStep (resolver : Nat → String) (cid : Nat) (opts : OperationOptions)
    (eng : VSlice → RemOutcome) (builder : List VSlice) (key : String)
    (value : VSlice) : List VSlice × Nat :=
  match eng value with
  | .conflict actualRev previous =>
    (if opts.silent then builder
      else builder ++ [buildDocumentIdentity resolver cid key actualRev .vnone
        (if opts.returnOld then some previous else none) none],
      TRI_ERROR_ARANGO_CONFLICT)
  | .err code => (builder, code)
  | .ok actualRev previous =>
    (if opts.silent then builder
      else builder ++ [buildDocumentIdentity resolver cid key actualRev .vnone
        (if opts.returnOld then some previous else none) none],
      TRI_ERROR_NO_ERROR)

/-- The per-document body of removeLocal: a plain string is a key or a
prefixed handle (the part after the slash is re-wrapped as the value slice),
an object supplies _key, anything else is a bad handle. -/
def removeWorkForOneDocument (resolver : Nat → String) (cid : Nat)
    (opts : OperationOptions) (eng : VSlice → RemOutcome)
    (builder : List VSlice) (value : VSlice) : List VSlice × Nat :=
  match value with
  | .vstr s =>
    if containsSlash s then
      removeEngineStep resolver cid opts eng builder (afterFirstSlash s)
        (.vstr (afterFirstSlash s))
    else removeEngineStep resolver cid opts eng builder s value
  | .vobj _ =>
    removeEngineStep resolver cid opts eng builder ((value.get "_key").copyStringD) value
  | _ => (builder, TRI_ERROR_ARANGO_DOCUMENT_HANDLE_BAD)

/-- The babies loop of removeLocal: the first element whose work returns a
non-zero code stops the batch. -/
def removeLocalLoop (resolver : Nat → String) (cid : Nat) (opts : OperationOptions)
    (eng : VSlice → RemOutcome) : List VSlice → List VSlice → List VSlice × Nat
  | [], b => (b, TRI_ERROR_NO_ERROR)
  | v :: vs, b =>
    let r := removeWorkForOneDocument resolver cid opts eng b v
    if r.2 ≠ TRI_ERROR_NO_ERROR then (r.1, r.2)
    else removeLocalLoop resolver cid opts eng vs r.1

/-- The OperationResult of Transaction::removeLocal. -/
def removeLocalResult (resolver : Nat → String) (cid : Nat) (opts : OperationOptions)
    (eng : VSlice → RemOutcome) (value : VSlice) : OperationResult :=
  match value with
  | .varr elems =>
    let r := removeLocalLoop resolver cid opts eng elems []
    ⟨r.2, r.1, [], opts.waitForSync⟩
  | _ =>
    let r := removeWorkForOneDocument resolver cid opts eng [] value
    ⟨r.2, r.1, [], opts.waitForSync⟩

/-
Characterisations of the batch loops used by the claims about per-document
error accounting.
-/

/-- The status code one insert work item yields (independent of the builder). -/
def insertResOf (resolver : Nat → String) (cid : Nat) (opts : OperationOptions)
    (eng : VSlice → Except Nat EngineDoc) (v : VSlice) : Nat :=
  (insertWorkForOneDocument resolver cid opts eng [] v).2

/-- The builder entries one element of an insert batch contributes, the
babies-error object included. -/
def insertElementEntries (resolver : Nat → String) (cid : Nat)
    (opts : OperationOptions) (eng : VSlice → Except Nat EngineDoc)
    (v : VSlice) : List VSlice :=
  let r := insertWorkForOneDocument resolver cid opts eng [] v
  if r.2 ≠ TRI_ERROR_NO_ERROR then
    r.1 ++ [.vobj [("error", .vbool true), ("errorNum", .vnum r.2)]]
  else r.1

/-- Fold the non-zero codes of a batch into a counter map. -/
def tallyFrom (counts : List (Nat × Nat)) (l : List Nat) : List (Nat × Nat) :=
  (l.filter (fun c => c ≠ TRI_ERROR_NO_ERROR)).foldl bumpErrorCount counts

/-- The per-error-kind counter map of a list of per-element codes. -/
def tallyErrors (l : List Nat) : List (Nat × Nat) := tallyFrom [] l

/-- The status code one modify work item yields. -/
def modifyResOf (resolver : Nat → String) (cid : Nat) (opts : OperationOptions)
    (eng : VSlice → ModOutcome) (v : VSlice) : Nat :=
  (modifyWorkForOneDocument resolver cid opts eng [] v).2

/-- The builder entries one element of a modify batch contributes. -/
def modifyElementEntries (resolver : Nat → String) (cid : Nat)
    (opts : OperationOptions) (eng : VSlice → ModOutcome) (v : VSlice) : List VSlice :=
  (modifyWorkForOneDocument resolver cid opts eng [] v).1

/-- The status code one remove work item yields. -/
def removeResOf (resolver : Nat → String) (cid : Nat) (opts : OperationOptions)
    (eng : VSlice → RemOutcome) (v : VSlice) : Nat :=
  (removeWorkForOneDocument resolver cid opts eng [] v).2

/-- The builder entries one element of a remove batch contributes. -/
def removeElementEntries (resolver : Nat → String) (cid : Nat)
    (opts : OperationOptions) (eng : VSlice → RemOutcome) (v : VSlice) : List VSlice :=
  (removeWorkForOneDocument resolver cid opts eng [] v).1

/-- The first non-zero code of a batch, NO_ERROR when all succeed. -/
def firstNonZero : List Nat → Nat
  | [] => TRI_ERROR_NO_ERROR
  | c :: cs => if c ≠ TRI_ERROR_NO_ERROR then c else firstNonZero cs

/-- The prefix of a batch up to and including its first failing element. -/
def stopAtFirstError (resOf : VSlice → Nat) : List VSlice → List VSlice
  | [] => []
  | v :: vs =>
    if resOf v ≠ TRI_ERROR_NO_ERROR then [v] else v :: stopAtFirstError resOf vs

theorem insertWork_shift (resolver : Nat → String) (cid : Nat)
    (opts : OperationOptions) (eng : VSlice → Except Nat EngineDoc)
    (b : List VSlice) (v : VSlice) :
    insertWorkForOneDocument resolver cid opts eng b v =
      (b ++ (insertWorkForOneDocument resolver cid opts eng [] v).1,
        (insertWorkForOneDocument resolver cid opts eng [] v).2) := by
  unfold insertWorkForOneDocument
  cases hv : v.isObjectS
  · simp
  · simp only [Bool.true_eq_false, if_false]
    cases eng v with
    | error r => simp
    | ok m => cases hs : opts.silent <;> simp

theorem modifyWork_shift (resolver : Nat → String) (cid : Nat)
    (opts : OperationOptions) (eng : VSlice → ModOutcome)
    (b : List VSlice) (v : VSlice) :
    modifyWorkForOneDocument resolver cid opts eng b v =
      (b ++ (modifyWorkForOneDocument resolver cid opts eng [] v).1,
        (modifyWorkForOneDocument resolver cid opts eng [] v).2) := by
  unfold modifyWorkForOneDocument
  cases hv : v.isObjectS
  · simp
  · simp only [Bool.true_eq_false, if_false]
    cases eng v with
    | conflict a p => cases hs : opts.silent <;> simp
    | err c => simp
    | ok m a p => cases hs : opts.silent <;> simp

theorem removeEngineStep_shift (resolver : Nat → String) (cid : Nat)
    (opts : OperationOptions) (eng : VSlice → RemOutcome)
    (b : List VSlice) (key : String) (v : VSlice) :
    removeEngineStep resolver cid opts eng b key v =
      (b ++ (removeEngineStep resolver cid opts eng [] key v).1,
        (removeEngineStep resolver cid opts eng [] key v).2) := by
  unfold removeEngineStep
  cases eng v with
  | conflict a p => cases hs : opts.silent <;> simp
  | err c => simp
  | ok a p => cases hs : opts.silent <;> simp

theorem removeWork_shift (resolver : Nat → String) (cid : Nat)
    (opts : OperationOptions) (eng : VSlice → RemOutcome)
    (b : List VSlice) (v : VSlice) :
    removeWorkForOneDocument resolver cid opts eng b v =
      (b ++ (removeWorkForOneDocument resolver cid opts eng [] v).1,
        (removeWorkForOneDocument resolver cid opts eng [] v).2) := by
  unfold removeWorkForOneDocument
  cases v with
  | vstr s =>
    dsimp only
    cases hc : containsSlash s
    · rw [if_neg (by simp), if_neg (by simp)]
      exact removeEngineStep_shift resolver cid opts eng b s (.vstr s)
    · rw [if_pos rfl, if_pos rfl]
      exact removeEngineStep_shift resolver cid opts eng b (afterFirstSlash s)
        (.vstr (afterFirstSlash s))
  | vobj fs => exact removeEngineStep_shift resolver cid opts eng b _ _
  | vnone => simp
  | vnull => simp
  | vbool x => simp
  | vnum n => simp
  | vcustom t c => simp
  | varr es => simp

theorem insertLocalLoop_eq (resolver : Nat → String) (cid : Nat)
    (opts : OperationOptions) (eng : VSlice → Except Nat EngineDoc)
    (elems : List VSlice) (b : List VSlice) (counts : List (Nat × Nat)) :
    insertLocalLoop resolver cid opts eng elems b counts =
      (b ++ elems.flatMap (insertElementEntries resolver cid opts eng),
        tallyFrom counts (elems.map (insertResOf resolver cid opts eng))) := by
  induction elems generalizing b counts with
  | nil => simp [insertLocalLoop, tallyFrom]
  | cons v vs ih =>
    rw [insertLocalLoop, insertWork_shift]
    by_cases hr : (insertWorkForOneDocument resolver cid opts eng [] v).2 ≠ TRI_ERROR_NO_ERROR
    · simp only [hr, if_true, createBabiesError]
      rw [ih]
      simp [insertElementEntries, insertResOf, hr, tallyFrom]
    · simp only [hr, if_false]
      rw [ih]
      simp only [ne_eq, not_not] at hr
      simp [insertElementEntries, insertResOf, hr, tallyFrom]

theorem modifyLocalLoop_eq (resolver : Nat → String) (cid : Nat)
    (opts : OperationOptions) (eng : VSlice → ModOutcome)
    (elems : List VSlice) (b : List VSlice) :
    modifyLocalLoop resolver cid opts eng elems b =
      (b ++ (stopAtFirstError (modifyResOf resolver cid opts eng) elems).flatMap
          (modifyElementEntries resolver cid opts eng),
        firstNonZero (elems.map (modifyResOf resolver cid opts eng))) := by
  induction elems generalizing b with
  | nil => simp [modifyLocalLoop, stopAtFirstError, firstNonZero]
  | cons v vs ih =>
    rw [modifyLocalLoop, modifyWork_shift]
    by_cases hr0 : (modifyWorkForOneDocument resolver cid opts eng [] v).2 = TRI_ERROR_NO_ERROR
    · rw [if_neg (by simp [hr0]), ih]
      simp [stopAtFirstError, firstNonZero, modifyElementEntries, modifyResOf, hr0]
    · rw [if_pos (by simp [hr0])]
      simp [stopAtFirstError, firstNonZero, modifyElementEntries, modifyResOf, hr0]

theorem removeLocalLoop_eq (resolver : Nat → String) (cid : Nat)
    (opts : OperationOptions) (eng : VSlice → RemOutcome)
    (elems : List VSlice) (b : List VSlice) :
    removeLocalLoop resolver cid opts eng elems b =
      (b ++ (stopAtFirstError (removeResOf resolver cid opts eng) elems).flatMap
          (removeElementEntries resolver cid opts eng),
        firstNonZero (elems.map (removeResOf resolver cid opts eng))) := by
  induction elems generalizing b with
  | nil => simp [removeLocalLoop, stopAtFirstError, firstNonZero]
  | cons v vs ih =>
    rw [removeLocalLoop, removeWork_shift]
    by_cases hr0 : (removeWorkForOneDocument resolver cid opts eng [] v).2 = TRI_ERROR_NO_ERROR
    · rw [if_neg (by simp [hr0]), ih]
      simp [stopAtFirstError, firstNonZero, removeElementEntries, removeResOf, hr0]
    · rw [if_pos (by simp [hr0])]
      simp [stopAtFirstError, firstNonZero, removeElementEntries, removeResOf, hr0]

/-- Claim C1: in a batch insert every failing element is counted in the
per-error-kind map and processing continues (the payload collects the
contribution of every element); in batch update/replace and batch remove the
first element returning a non-zero code stops the batch (the payload only
contains the contributions up to that element) and that code is the top-level
status of the OperationResult. -/
theorem batch_error_handling (resolver : Nat → String) (cid : Nat)
    (opts : OperationOptions) (engI : VSlice → Except Nat EngineDoc)
    (engM : VSlice → ModOutcome) (engR : VSlice → RemOutcome)
    (elems : List VSlice) :
    ((insertLocalResult resolver cid opts engI (.varr elems)).countErrorCodes
        = tallyErrors (elems.map (insertResOf resolver cid opts engI))
      ∧ (insertLocalResult resolver cid opts engI (.varr elems)).payload
        = elems.flatMap (insertElementEntries resolver cid opts engI))
    ∧ ((modifyLocalResult resolver cid opts engM (.varr elems)).code
        = firstNonZero (elems.map (modifyResOf resolver cid opts engM))
      ∧ (modifyLocalResult resolver cid opts engM (.varr elems)).payload
        = (stopAtFirstError (modifyResOf resolver cid opts engM) elems).flatMap
            (modifyElementEntries resolver cid opts engM))
    ∧ ((removeLocalResult resolver cid opts engR (.varr elems)).code
        = firstNonZero (elems.map (removeResOf resolver cid opts engR))
      ∧ (removeLocalResult resolver cid opts engR (.varr elems)).payload
        = (stopAtFirstError (removeResOf resolver cid opts engR) elems).flatMap
            (removeElementEntries resolver cid opts engR)) := by
  refine ⟨⟨?_, ?_⟩, ⟨?_, ?_⟩, ⟨?_, ?_⟩⟩ <;>
    simp [insertLocalResult, modifyLocalResult, removeLocalResult,
      insertLocalLoop_eq, modifyLocalLoop_eq, removeLocalLoop_eq, tallyErrors]

/-- Total of the per-error-kind counter map. -/
def sumCounts (m : List (Nat × Nat)) : Nat := (m.map (fun p => p.2)).sum

/-- Recognises the error objects written by createBabiesError. -/
def isBabiesErrorObj : VSlice → Bool
  | .vobj (("error", .vbool true) :: _) => true
  | _ => false

theorem sumCounts_bump (m : List (Nat × Nat)) (c : Nat) :
    sumCounts (bumpErrorCount m c) = sumCounts m + 1 := by
  induction m with
  | nil => simp [bumpErrorCount, sumCounts]
  | cons p rest ih =>
    obtain ⟨k, n⟩ := p
    by_cases hk : k = c
    · simp [bumpErrorCount, hk, sumCounts]
      omega
    · simp only [bumpErrorCount, hk, if_false]
      simp only [sumCounts, List.map_cons, List.sum_cons] at ih ⊢
      omega

theorem sumCounts_foldl (l : List Nat) (counts : List (Nat × Nat)) :
    sumCounts (l.foldl bumpErrorCount counts) = sumCounts counts + l.length := by
  induction l generalizing counts with
  | nil => simp
  | cons c cs ih =>
    simp only [List.foldl_cons, List.length_cons]
    rw [ih, sumCounts_bump]
    omega

theorem sumCounts_tallyFrom (counts : List (Nat × Nat)) (l : List Nat) :
    sumCounts (tallyFrom counts l) =
      sumCounts counts + (l.filter (fun c => c ≠ TRI_ERROR_NO_ERROR)).length := by
  simp [tallyFrom, sumCounts_foldl]

theorem filter_length_split {α : Type} (p : α → Bool) (l : List α) :
    (l.filter p).length + (l.filter (fun a => ! p a)).length = l.length := by
  induction l with
  | nil => simp
  | cons a as ih =>
    by_cases ha : p a
    · simp [List.filter_cons, ha]
      omega
    · simp [List.filter_cons, ha]
      omega

theorem insertEntries_babies (resolver : Nat → String) (cid : Nat)
    (opts : OperationOptions) (eng : VSlice → Except Nat EngineDoc) (v : VSlice) :
    ((insertElementEntries resolver cid opts eng v).filter isBabiesErrorObj).length
      = if insertResOf resolver cid opts eng v ≠ TRI_ERROR_NO_ERROR then 1 else 0 := by
  unfold insertElementEntries insertResOf insertWorkForOneDocument
  cases hv : v.isObjectS
  · simp [isBabiesErrorObj, TRI_ERROR_ARANGO_DOCUMENT_TYPE_INVALID, TRI_ERROR_NO_ERROR]
  · simp only [Bool.true_eq_false, if_false]
    cases he : eng v with
    | error r =>
      by_cases hr : r = TRI_ERROR_NO_ERROR
      · simp [hr, isBabiesErrorObj]
      · simp [hr, isBabiesErrorObj]
    | ok m =>
      cases hs : opts.silent
      · simp [isBabiesErrorObj, buildDocumentIdentity, TRI_ERROR_NO_ERROR]
      · simp [isBabiesErrorObj, TRI_ERROR_NO_ERROR]

theorem flatMap_babies_count (resolver : Nat → String) (cid : Nat)
    (opts : OperationOptions) (eng : VSlice → Except Nat EngineDoc)
    (elems : List VSlice) :
    ((elems.flatMap (insertElementEntries resolver cid opts eng)).filter
        isBabiesErrorObj).length
      = (elems.filter (fun v =>
          insertResOf resolver cid opts eng v ≠ TRI_ERROR_NO_ERROR)).length := by
  induction elems with
  | nil => simp
  | cons v vs ih =>
    simp only [List.flatMap_cons, List.filter_append, List.length_append, ih,
      List.filter_cons]
    rw [insertEntries_babies]
    by_cases hr : insertResOf resolver cid opts eng v ≠ TRI_ERROR_NO_ERROR
    · rw [if_pos hr, if_pos (by simpa using hr)]
      simp only [List.length_cons]
      omega
    · simp [hr]

/-- Claim C10: for every array input to insertLocal the top-level status code
is NO_ERROR however many elements failed; the counter map totals the number
of failing elements (elements minus successes) and the payload carries
exactly one babies-error object per failing element. -/
theorem insert_batch_top_level (resolver : Nat → String) (cid : Nat)
    (opts : OperationOptions) (eng : VSlice → Except Nat EngineDoc)
    (elems : List VSlice) :
    (insertLocalResult resolver cid opts eng (.varr elems)).code = TRI_ERROR_NO_ERROR
    ∧ sumCounts (insertLocalResult resolver cid opts eng (.varr elems)).countErrorCodes
        = elems.length - (elems.filter (fun v =>
            insertResOf resolver cid opts eng v = TRI_ERROR_NO_ERROR)).length
    ∧ ((insertLocalResult resolver cid opts eng (.varr elems)).payload.filter
          isBabiesErrorObj).length
        = (elems.filter (fun v =>
            insertResOf resolver cid opts eng v ≠ TRI_ERROR_NO_ERROR)).length := by
  refine ⟨rfl, ?_, ?_⟩
  · have h1 : (insertLocalResult resolver cid opts eng (.varr elems)).countErrorCodes
        = tallyFrom [] (elems.map (insertResOf resolver cid opts eng)) := by
      simp [insertLocalResult, insertLocalLoop_eq, tallyErrors]
    rw [h1, sumCounts_tallyFrom]
    have h2 := filter_length_split
      (fun v => decide (insertResOf resolver cid opts eng v = TRI_ERROR_NO_ERROR)) elems
    have h3 : ((elems.map (insertResOf resolver cid opts eng)).filter
          (fun c => c ≠ TRI_ERROR_NO_ERROR)).length
        = (elems.filter (fun v =>
            ! decide (insertResOf resolver cid opts eng v = TRI_ERROR_NO_ERROR))).length := by
      rw [List.filter_map]
      simp [Function.comp_def]
    rw [h3]
    simp only [sumCounts, List.map_nil, List.sum_nil, Nat.zero_add]
    omega
  · have h1 : (insertLocalResult resolver cid opts eng (.varr elems)).payload
        = elems.flatMap (insertElementEntries resolver cid opts eng) := by
      simp [insertLocalResult, insertLocalLoop_eq]
    rw [h1, flatMap_babies_count]

theorem filter_length_lt {α : Type} (p : α → Bool) (l : List α) (x : α)
    (hx : x ∈ l) (hpx : p x = false) : (l.filter p).length < l.length := by
  induction l with
  | nil => cases hx
  | cons a as ih =>
    rcases List.mem_cons.mp hx with h | h
    · subst h
      simp only [List.filter_cons, hpx, Bool.false_eq_true, if_false, List.length_cons]
      have := List.length_filter_le p as
      omega
    · by_cases ha : p a
      · simp only [List.filter_cons, ha, if_true, List.length_cons]
        exact Nat.succ_lt_succ (ih h)
      · simp only [List.filter_cons, ha, Bool.false_eq_true, if_false, List.length_cons]
        have := List.length_filter_le p as
        omega

/-- Claim C2: in the shard-leader replication branch of insertLocal every
follower whose request did not complete with ACCEPTED or CREATED is removed
from the follower set and logged, every follower whose request did complete
is kept, and the OperationResult of the operation is exactly the local write
result, untouched by the follower outcomes. -/
theorem insert_follower_replication (resolver : Nat → String) (cid : Nat)
    (opts : OperationOptions) (eng : VSlice → Except Nat EngineDoc)
    (value : VSlice) (followers : List String)
    (outcome : String → FollowerOutcome) :
    (insertLocalFull resolver cid opts eng value true followers outcome).1
        = insertLocalResult resolver cid opts eng value
    ∧ (∀ f, f ∈ followers → followerGood (outcome f) = false →
        f ∉ (insertLocalFull resolver cid opts eng value true followers outcome).2.1
        ∧ f ∈ (insertLocalFull resolver cid opts eng value true followers outcome).2.2)
    ∧ (∀ f, f ∈ followers → followerGood (outcome f) = true →
        f ∈ (insertLocalFull resolver cid opts eng value true followers outcome).2.1) := by
  refine ⟨rfl, ?_, ?_⟩
  · intro f hf hbad
    have hlen : 0 < followers.length := List.length_pos.mpr (List.ne_nil_of_mem hf)
    have hguard : ((followers.filter (fun g => followerGood (outcome g))).length
        < followers.length) := filter_length_lt _ followers f hf hbad
    constructor
    · simp only [insertLocalFull, insertLocalReplication]
      rw [if_pos ⟨trivial, hlen⟩, if_pos hguard]
      intro hmem
      have := (List.mem_filter.mp hmem).2
      rw [hbad] at this
      cases this
    · simp only [insertLocalFull, insertLocalReplication]
      rw [if_pos ⟨trivial, hlen⟩, if_pos hguard]
      exact List.mem_filter.mpr ⟨hf, by simp [hbad]⟩
  · intro f hf hgood
    have hlen : 0 < followers.length := List.length_pos.mpr (List.ne_nil_of_mem hf)
    simp only [insertLocalFull, insertLocalReplication]
    rw [if_pos ⟨trivial, hlen⟩]
    by_cases hguard : ((followers.filter (fun g => followerGood (outcome g))).length
        < followers.length)
    · rw [if_pos hguard]
      exact List.mem_filter.mpr ⟨hf, by simp [hgood]⟩
    · rw [if_neg hguard]
      exact hf

def exampleFollowerOutcome : String → FollowerOutcome := fun f =>
  if f = "F1" then ⟨true, true, httpCreated⟩ else ⟨true, true, 500⟩

def exampleInsertDoc : VSlice := .vobj [("_key", .vstr "k1")]

def exampleInsertEngine : VSlice → Except Nat EngineDoc := fun v =>
  .ok ⟨v, .vstr "R1"⟩

def exampleOptions : OperationOptions := ⟨false, false, false, false, false⟩

/-- Witness for C2: follower-demotion scenario 6 of the spec: two followers,
F1 answers 201 and is kept, F2 answers 500 and is demoted and logged, while
the OperationResult is the plain local one. -/
theorem insert_follower_replication_witness :
    ("F2" ∈ ["F1", "F2"] ∧ followerGood (exampleFollowerOutcome "F2") = false)
    ∧ (insertLocalFull exampleResolver 1 exampleOptions exampleInsertEngine
          exampleInsertDoc true ["F1", "F2"] exampleFollowerOutcome).1
        = insertLocalResult exampleResolver 1 exampleOptions exampleInsertEngine
            exampleInsertDoc
    ∧ "F2" ∉ (insertLocalFull exampleResolver 1 exampleOptions exampleInsertEngine
          exampleInsertDoc true ["F1", "F2"] exampleFollowerOutcome).2.1
    ∧ "F2" ∈ (insertLocalFull exampleResolver 1 exampleOptions exampleInsertEngine
          exampleInsertDoc true ["F1", "F2"] exampleFollowerOutcome).2.2 := by
  have h := insert_follower_replication exampleResolver 1 exampleOptions
    exampleInsertEngine exampleInsertDoc ["F1", "F2"] exampleFollowerOutcome
  have hbad : followerGood (exampleFollowerOutcome "F2") = false := by decide
  have hmem : "F2" ∈ ["F1", "F2"] := by decide
  obtain ⟨hres, hdrop, _⟩ := h
  obtain ⟨hnot, hlog⟩ := hdrop "F2" hmem hbad
  exact ⟨⟨hmem, hbad⟩, hres, hnot, hlog⟩

/-
Coordinator CRUD pipeline (Transaction::documentCoordinator,
updateCoordinator, replaceCoordinator, removeCoordinator). The shard-routing
RPC (getDocumentOnCoordinator and friends) is outside the core; its return
code, HTTP response code and parsed response body are an explicit parameter.
-/

/-- Outcome of one shard-dispatch RPC: the return code of the call, the HTTP
response code, and the parse outcome of the response body (the error carries
the parser message). -/
structure CoordDispatch where
  res : Nat
  responseCode : Nat
  body : Except String VSlice

/-- An OperationResult as built on the coordinator: code, optional message,
optional parsed body, waitForSync bit. -/
structure CoordOpResult where
  code : Nat
  message : Option String
  body : Option VSlice
  waitForSync : Bool

/-- VelocyPackHelper::getNumericValue with a default. -/
def getNumericValueD (s : VSlice) (key : String) (dflt : Nat) : Nat :=
  match s.get key with
  | .vnum n => n.toNat
  | _ => dflt

/-- VelocyPackHelper::getStringValue with a default. -/
def getStringValueD (s : VSlice) (key : String) (dflt : String) : String :=
  match s.get key with
  | .vstr t => t
  | _ => dflt

/-- DBServerResponseBad: parse the error information of a 400 response. -/
def DBServerResponseBad (body : Except String VSlice) : CoordOpResult :=
  match body with
  | .ok s =>
    ⟨getNumericValueD s "errorNum" TRI_ERROR_INTERNAL,
      some (getStringValueD s "errorMessage" "JSON sent to DBserver was bad"),
      none, false⟩
  | .error _ => ⟨TRI_ERROR_INTERNAL, some "JSON sent to DBserver was bad", none, false⟩

/-- Modelled from the spec: TRI_ExtractRevisionId (VocBase helper, not among
the sources): the revision token carried by the _rev attribute, 0 when
absent. -/
def extractRevisionId (s : VSlice) : Nat := getNumericValueD s "_rev" 0

/-- Transaction::documentCoordinator: single-document read through the
shard-dispatch RPC; an array value throws NOT_IMPLEMENTED. -/
def documentCoordinator (opts : OperationOptions) (value : VSlice)
    (rpc : CoordDispatch) : Except Nat CoordOpResult :=
  if value.isArrayS then .error TRI_ERROR_NOT_IMPLEMENTED
  else if transactionExtractKey value = "" then
    .ok ⟨TRI_ERROR_ARANGO_DOCUMENT_KEY_BAD, none, none, false⟩
  else if rpc.res = TRI_ERROR_NO_ERROR then
    if rpc.responseCode = httpOK ∨ rpc.responseCode = httpPreconditionFailed then
      match rpc.body with
      | .ok s =>
        .ok ⟨if rpc.responseCode = httpOK then TRI_ERROR_NO_ERROR
              else TRI_ERROR_ARANGO_CONFLICT, none, some s, false⟩
      | .error e =>
        .ok ⟨TRI_ERROR_INTERNAL, some ("JSON from DBserver not parseable: " ++ e),
          none, false⟩
    else if rpc.responseCode = httpNotFound then
      .ok ⟨TRI_ERROR_ARANGO_DOCUMENT_NOT_FOUND, none, none, false⟩
    else .ok ⟨TRI_ERROR_INTERNAL, none, none, false⟩
  else .ok ⟨rpc.res, none, none, false⟩

/-- The shared response mapping of updateCoordinator and replaceCoordinator:
CONFLICT maps to UNIQUE_CONSTRAINT_VIOLATED, PRECONDITION_FAILED to
ARANGO_CONFLICT (the switch falls through), both then parse the body like the
ACCEPTED and CREATED successes; BAD parses the error body; NOT_FOUND maps to
DOCUMENT_NOT_FOUND. -/
def modifyCoordinatorMapping (value : VSlice) (rpc : CoordDispatch) :
    Except Nat CoordOpResult :=
  if transactionExtractKey value = "" then
    .ok ⟨TRI_ERROR_ARANGO_DOCUMENT_KEY_BAD, none, none, false⟩
  else if rpc.res = TRI_ERROR_NO_ERROR then
    if rpc.responseCode = httpConflict ∨ rpc.responseCode = httpPreconditionFailed
        ∨ rpc.responseCode = httpAccepted ∨ rpc.responseCode = httpCreated then
      let errorCode :=
        if rpc.responseCode = httpConflict then
          TRI_ERROR_ARANGO_UNIQUE_CONSTRAINT_VIOLATED
        else if rpc.responseCode = httpPreconditionFailed then
          TRI_ERROR_ARANGO_CONFLICT
        else TRI_ERROR_NO_ERROR
      match rpc.body with
      | .ok s => .ok ⟨errorCode, none, some s, rpc.responseCode = httpCreated⟩
      | .error e =>
        .ok ⟨TRI_ERROR_INTERNAL, some ("JSON from DBserver not parseable: " ++ e),
          none, false⟩
    else if rpc.responseCode = httpBad then .ok (DBServerResponseBad rpc.body)
    else if rpc.responseCode = httpNotFound then
      .ok ⟨TRI_ERROR_ARANGO_DOCUMENT_NOT_FOUND, none, none, false⟩
    else .ok ⟨TRI_ERROR_INTERNAL, none, none, false⟩
  else .ok ⟨rpc.res, none, none, false⟩

/-- Transaction::updateCoordinator: an array value throws NOT_IMPLEMENTED
(multi-document variant not yet implemented). -/
def updateCoordinator (opts : OperationOptions) (newValue : VSlice)
    (rpc : CoordDispatch) : Except Nat CoordOpResult :=
  if newValue.isArrayS then .error TRI_ERROR_NOT_IMPLEMENTED
  else modifyCoordinatorMapping newValue rpc

/-- Transaction::replaceCoordinator: an array value throws
ARANGO_DOCUMENT_TYPE_INVALID. -/
def replaceCoordinator (opts : OperationOptions) (newValue : VSlice)
    (rpc : CoordDispatch) : Except Nat CoordOpResult :=
  if newValue.isArrayS then .error TRI_ERROR_ARANGO_DOCUMENT_TYPE_INVALID
  else modifyCoordinatorMapping newValue rpc

/-- Transaction::removeCoordinator: an array value throws NOT_IMPLEMENTED;
OK, ACCEPTED and PRECONDITION_FAILED parse the body, the latter mapping to
ARANGO_CONFLICT, and waitForSync reflects a non-ACCEPTED success. -/
def removeCoordinator (opts : OperationOptions) (value : VSlice)
    (rpc : CoordDispatch) : Except Nat CoordOpResult :=
  if value.isArrayS then .error TRI_ERROR_NOT_IMPLEMENTED
  else if transactionExtractKey value = "" then
    .ok ⟨TRI_ERROR_ARANGO_DOCUMENT_KEY_BAD, none, none, false⟩
  else if rpc.res = TRI_ERROR_NO_ERROR then
    if rpc.responseCode = httpOK ∨ rpc.responseCode = httpAccepted
        ∨ rpc.responseCode = httpPreconditionFailed then
      match rpc.body with
      | .ok s =>
        .ok ⟨if rpc.responseCode = httpPreconditionFailed then
              TRI_ERROR_ARANGO_CONFLICT else TRI_ERROR_NO_ERROR, none, some s,
          decide (rpc.responseCode ≠ httpAccepted)⟩
      | .error e =>
        .ok ⟨TRI_ERROR_INTERNAL, some ("JSON from DBserver not parseable: " ++ e),
          none, false⟩
    else if rpc.responseCode = httpBad then .ok (DBServerResponseBad rpc.body)
    else if rpc.responseCode = httpNotFound then
      .ok ⟨TRI_ERROR_ARANGO_DOCUMENT_NOT_FOUND, none, none, false⟩
    else .ok ⟨TRI_ERROR_INTERNAL, none, none, false⟩
  else .ok ⟨rpc.res, none, none, false⟩

def exampleDispatch : CoordDispatch := ⟨TRI_ERROR_NO_ERROR, httpOK, .ok .vnull⟩

/-- Counterexample for C8: replaceCoordinator rejects an array value with
ARANGO_DOCUMENT_TYPE_INVALID, not with the NOT_IMPLEMENTED kind the claim
asserts for all four coordinator operations. -/
theorem replaceCoordinator_array_counterexample :
    replaceCoordinator exampleOptions (.varr []) exampleDispatch =
        .error TRI_ERROR_ARANGO_DOCUMENT_TYPE_INVALID
      ∧ TRI_ERROR_ARANGO_DOCUMENT_TYPE_INVALID ≠ TRI_ERROR_NOT_IMPLEMENTED :=
  ⟨rfl, by decide⟩

/-- Claim C8 as amended: documentCoordinator, updateCoordinator and
removeCoordinator fail with NOT_IMPLEMENTED on an array value, while
replaceCoordinator fails with ARANGO_DOCUMENT_TYPE_INVALID. -/
theorem coordinator_array_rejection (opts : OperationOptions) (value : VSlice)
    (rpc : CoordDispatch) (h : value.isArrayS = true) :
    documentCoordinator opts value rpc = .error TRI_ERROR_NOT_IMPLEMENTED
    ∧ updateCoordinator opts value rpc = .error TRI_ERROR_NOT_IMPLEMENTED
    ∧ removeCoordinator opts value rpc = .error TRI_ERROR_NOT_IMPLEMENTED
    ∧ replaceCoordinator opts value rpc =
        .error TRI_ERROR_ARANGO_DOCUMENT_TYPE_INVALID := by
  refine ⟨?_, ?_, ?_, ?_⟩ <;>
    simp [documentCoordinator, updateCoordinator, removeCoordinator,
      replaceCoordinator, h]

/-- Witness for the amended C8 at a concrete array value. -/
theorem coordinator_array_rejection_witness :
    (VSlice.varr []).isArrayS = true
    ∧ documentCoordinator exampleOptions (.varr []) exampleDispatch =
        .error TRI_ERROR_NOT_IMPLEMENTED
    ∧ updateCoordinator exampleOptions (.varr []) exampleDispatch =
        .error TRI_ERROR_NOT_IMPLEMENTED
    ∧ removeCoordinator exampleOptions (.varr []) exampleDispatch =
        .error TRI_ERROR_NOT_IMPLEMENTED
    ∧ replaceCoordinator exampleOptions (.varr []) exampleDispatch =
        .error TRI_ERROR_ARANGO_DOCUMENT_TYPE_INVALID := by
  have h := coordinator_array_rejection exampleOptions (.varr []) exampleDispatch rfl
  exact ⟨rfl, h.1, h.2.1, h.2.2.1, h.2.2.2⟩

/-
The debug REST handler (RestDebugHandler::execute) for the
/_admin/debug/failat endpoint.
-/

inductive RequestType where
  | deleteReq
  | put
  | get
  | post
  | patch
  | head

/-- A response generated by the handler: generateNotImplemented or
generateResult with an HTTP code and a boolean body. -/
inductive GenResponse where
  | notImplemented (msg : String)
  | result (code : Nat) (body : Bool)

/-- Modelled from the spec: TRI_ClearFailurePointsDebugging clears all
fail-points (lib debugging helpers are not among the sources). -/
def clearFailurePoints : List String → List String := fun _ => []

/-- Modelled from the spec: TRI_RemoveFailurePointDebugging removes one
fail-point by name. -/
def removeFailurePoint (points : List String) (name : String) : List String :=
  points.filter (fun p => p ≠ name)

/-- Modelled from the spec: TRI_AddFailurePointDebugging arms one fail-point. -/
def addFailurePoint (points : List String) (name : String) : List String :=
  if name ∈ points then points else points ++ [name]

/-- RestDebugHandler::execute: the fail-point state transition and the list of
generated responses, in the order the handler emits them. The PUT branch
without a name calls generateNotImplemented but does not return, so the final
try block still emits a 200 response with body true. -/
def restDebugExecute (type : RequestType) (suffix : List String)
    (points : List String) : List String × List GenResponse :=
  let len := suffix.length
  if len = 0 ∨ 2 < len ∨ suffix.head? ≠ some "failat" then
    (points, [.notImplemented "ILLEGAL /_admin/debug/failat"])
  else
    match type with
    | .deleteReq =>
      let pts :=
        if len = 1 then clearFailurePoints points
        else removeFailurePoint points (suffix.getD 1 "")
      (pts, [.result httpOK true])
    | .put =>
      if len = 2 then
        (addFailurePoint points (suffix.getD 1 ""), [.result httpOK true])
      else
        (points, [.notImplemented "ILLEGAL /_admin/debug/failat",
          .result httpOK true])
    | _ => (points, [.notImplemented "ILLEGAL /_admin/debug/failat"])

/-- Claim C9, evaluated: the three documented verbs behave as specified, but a
PUT without a name suffix emits the 501 response and then also a 200 response
with body true (the missing return after generateNotImplemented), so the
claim that no 200 is produced is violated by the code. -/
theorem restDebug_put_without_name_eval :
    restDebugExecute .put ["failat"] [] =
      ([], [.notImplemented "ILLEGAL /_admin/debug/failat", .result httpOK true])
    ∧ restDebugExecute .deleteReq ["failat"] ["a", "b"] = ([], [.result httpOK true])
    ∧ restDebugExecute .deleteReq ["failat", "a"] ["a", "b"] =
        (["b"], [.result httpOK true])
    ∧ restDebugExecute .put ["failat", "x"] [] = (["x"], [.result httpOK true])
    ∧ restDebugExecute .get ["failat"] [] =
        ([], [.notImplemented "ILLEGAL /_admin/debug/failat"]) := by
  refine ⟨rfl, rfl, ?_, rfl, rfl⟩
  show (removeFailurePoint ["a", "b"] "a", _) = _
  rw [show removeFailurePoint ["a", "b"] "a" = ["b"] from by
    simp [removeFailurePoint]]

/-
AQL constant values and their deterministic total order (condition
normalisation works on one attribute whose comparable constants are scalars
or arrays of scalars; modelled from the spec: a deterministic total order per
attribute type, with the VelocyPack type rank null < bool < number < string
< array).
-/

inductive VValue where
  | vnullV
  | vboolV (b : Bool)
  | vintV (n : Int)
  | vstrV (s : String)
deriving DecidableEq, Repr

/-- VelocyPack type rank of a scalar value. -/
def vrank : VValue → Nat
  | .vnullV => 0
  | .vboolV _ => 1
  | .vintV _ => 2
  | .vstrV _ => 3

/-- CompareAstNodes on scalar constants: type rank first, value inside one
type. -/
def cmpVal (a b : VValue) : Ordering :=
  match a, b with
  | .vboolV x, .vboolV y => compare x y
  | .vintV x, .vintV y => compare x y
  | .vstrV x, .vstrV y => compare x y
  | _, _ => compare (vrank a) (vrank b)

/-- Lexicographic comparison of constant arrays. -/
def cmpValList : List VValue → List VValue → Ordering
  | [], [] => .eq
  | [], _ :: _ => .lt
  | _ :: _, [] => .gt
  | a :: as, b :: bs => (cmpVal a b).then (cmpValList as bs)

/-- Symmetry of a lawful comparator, stated with the comparator explicit. -/
theorem ordSymm {beta : Type} (c : beta → beta → Ordering) [Batteries.OrientedCmp c]
    (x y : beta) : c x y = (c y x).swap :=
  (Batteries.OrientedCmp.symm y x).symm

/-- Reflexivity of a lawful comparator. -/
theorem ordRefl {beta : Type} (c : beta → beta → Ordering) [Batteries.OrientedCmp c]
    (x : beta) : c x x = .eq :=
  Batteries.OrientedCmp.cmp_refl

/-- Transitivity of the non-strict relation of a lawful comparator. -/
theorem ordLeTrans {beta : Type} (c : beta → beta → Ordering) [Batteries.TransCmp c]
    {x y z : beta} (h1 : c x y ≠ .gt) (h2 : c y z ≠ .gt) : c x z ≠ .gt :=
  Batteries.TransCmp.le_trans h1 h2

/-- Transitivity of the strict relation of a lawful comparator. -/
theorem ordLtTrans {beta : Type} (c : beta → beta → Ordering) [Batteries.TransCmp c]
    {x y z : beta} (h1 : c x y = .lt) (h2 : c y z = .lt) : c x z = .lt :=
  Batteries.TransCmp.lt_trans h1 h2

/-- Left congruence of a lawful comparator. -/
theorem ordCongrL {beta : Type} (c : beta → beta → Ordering) [Batteries.TransCmp c]
    (x y z : beta) (h : c x y = .eq) : c x z = c y z :=
  Batteries.TransCmp.cmp_congr_left h

/-- Right congruence of a lawful comparator. -/
theorem ordCongrR {beta : Type} (c : beta → beta → Ordering) [Batteries.TransCmp c]
    (x y z : beta) (h : c y z = .eq) : c x y = c x z :=
  Batteries.TransCmp.cmp_congr_right h

theorem cmpVal_bool (x y : Bool) : cmpVal (.vboolV x) (.vboolV y) = compare x y := rfl

theorem cmpVal_int (x y : Int) : cmpVal (.vintV x) (.vintV y) = compare x y := rfl

theorem cmpVal_str (x y : String) : cmpVal (.vstrV x) (.vstrV y) = compare x y := rfl

theorem cmpVal_symm (a b : VValue) : cmpVal a b = (cmpVal b a).swap := by
  cases a <;> cases b <;>
    first
      | rfl
      | (rw [cmpVal_bool, cmpVal_bool]; exact ordSymm compare ..)
      | (rw [cmpVal_int, cmpVal_int]; exact ordSymm compare ..)
      | (rw [cmpVal_str, cmpVal_str]; exact ordSymm compare ..)

theorem cmpVal_le_trans {a b c : VValue} (h1 : cmpVal a b ≠ .gt)
    (h2 : cmpVal b c ≠ .gt) : cmpVal a c ≠ .gt := by
  cases a <;> cases b <;> cases c <;>
    first
      | exact fun hx => Ordering.noConfusion hx
      | exact absurd rfl h1
      | exact absurd rfl h2
      | (rw [cmpVal_bool] at h1 h2 ⊢; exact ordLeTrans compare h1 h2)
      | (rw [cmpVal_int] at h1 h2 ⊢; exact ordLeTrans compare h1 h2)
      | (rw [cmpVal_str] at h1 h2 ⊢; exact ordLeTrans compare h1 h2)

instance : Batteries.TransCmp cmpVal where
  symm x y := by rw [cmpVal_symm x y, Ordering.swap_swap]
  le_trans := cmpVal_le_trans

theorem cmpValList_symm (as bs : List VValue) :
    cmpValList as bs = (cmpValList bs as).swap := by
  induction as generalizing bs with
  | nil => cases bs <;> rfl
  | cons a as ih =>
    cases bs with
    | nil => rfl
    | cons b bs =>
      show (cmpVal a b).then (cmpValList as bs) = _
      rw [cmpVal_symm, ih, ← Ordering.swap_then]
      rfl

theorem cmpValList_le_trans : ∀ {as bs cs : List VValue},
    cmpValList as bs ≠ .gt → cmpValList bs cs ≠ .gt → cmpValList as cs ≠ .gt := by
  intro as
  induction as with
  | nil =>
    intro bs cs h1 h2
    cases bs <;> cases cs <;> simp_all [cmpValList]
  | cons a as ih =>
    intro bs cs h1 h2
    cases bs with
    | nil => exact absurd rfl h1
    | cons b bs =>
      cases cs with
      | nil => exact absurd rfl h2
      | cons c cs =>
        show (cmpVal a c).then (cmpValList as cs) ≠ .gt
        have h1s : cmpVal a b = .lt ∨ (cmpVal a b = .eq ∧ cmpValList as bs ≠ .gt) := by
          rcases ho : cmpVal a b with _ | _ | _
          · exact Or.inl rfl
          · refine Or.inr ⟨rfl, ?_⟩
            intro hg
            apply h1
            show (cmpVal a b).then (cmpValList as bs) = .gt
            rw [ho, hg]; rfl
          · exact absurd (by show (cmpVal a b).then _ = .gt; rw [ho]; rfl) h1
        have h2s : cmpVal b c = .lt ∨ (cmpVal b c = .eq ∧ cmpValList bs cs ≠ .gt) := by
          rcases ho : cmpVal b c with _ | _ | _
          · exact Or.inl rfl
          · refine Or.inr ⟨rfl, ?_⟩
            intro hg
            apply h2
            show (cmpVal b c).then (cmpValList bs cs) = .gt
            rw [ho, hg]; rfl
          · exact absurd (by show (cmpVal b c).then _ = .gt; rw [ho]; rfl) h2
        rcases h1s with hab | ⟨hab, htl1⟩
        · rcases h2s with hbc | ⟨hbc, _⟩
          · have hl : cmpVal a c = .lt := ordLtTrans cmpVal hab hbc
            rw [hl]; intro hx; cases hx
          · have hl : cmpVal a c = .lt :=
              (ordCongrR cmpVal a b c hbc).symm.trans hab
            rw [hl]; intro hx; cases hx
        · rcases h2s with hbc | ⟨hbc, htl2⟩
          · have hl : cmpVal a c = .lt :=
              (ordCongrL cmpVal a b c hab).trans hbc
            rw [hl]; intro hx; cases hx
          · have hac : cmpVal a c = .eq :=
              (ordCongrL cmpVal a b c hab).trans hbc
            rw [hac]
            intro hg
            have hgl : cmpValList as cs = .gt := by
              rcases Ordering.then_eq_gt.mp hg with h | ⟨_, h⟩
              · exact absurd h (by decide)
              · exact h
            exact ih htl1 htl2 hgl
instance : Batteries.TransCmp cmpValList where
  symm x y := by rw [cmpValList_symm x y, Ordering.swap_swap]
  le_trans := cmpValList_le_trans

/-- A lower bound of a condition part: a scalar constant or a constant array
(arrays rank above every scalar in the VelocyPack order). -/
inductive Bound where
  | scalar (v : VValue)
  | array (vals : List VValue)
deriving DecidableEq, Repr

/-- CompareAstNodes on bounds. -/
def cmpBound : Bound → Bound → Ordering
  | .scalar a, .scalar b => cmpVal a b
  | .scalar _, .array _ => .lt
  | .array _, .scalar _ => .gt
  | .array a, .array b => cmpValList a b

theorem cmpBound_symm (a b : Bound) : cmpBound a b = (cmpBound b a).swap := by
  cases a <;> cases b <;>
    first
      | rfl
      | exact cmpVal_symm ..
      | exact cmpValList_symm ..

theorem cmpBound_le_trans {a b c : Bound} (h1 : cmpBound a b ≠ .gt)
    (h2 : cmpBound b c ≠ .gt) : cmpBound a c ≠ .gt := by
  cases a <;> cases b <;> cases c <;>
    first
      | exact fun hx => Ordering.noConfusion hx
      | exact absurd rfl h1
      | exact absurd rfl h2
      | exact cmpVal_le_trans h1 h2
      | exact cmpValList_le_trans h1 h2

instance : Batteries.TransCmp cmpBound where
  symm x y := by rw [cmpBound_symm x y, Ordering.swap_swap]
  le_trans := cmpBound_le_trans

/-- Lift a comparator to options, the unset bound sorting first. -/
def cmpOption {beta : Type} (c : beta → beta → Ordering) :
    Option beta → Option beta → Ordering
  | none, none => .eq
  | none, some _ => .lt
  | some _, none => .gt
  | some x, some y => c x y

instance cmpOptionTrans {beta : Type} (c : beta → beta → Ordering)
    [Batteries.TransCmp c] : Batteries.TransCmp (cmpOption c) where
  symm x y := by
    cases x <;> cases y <;>
      first
        | rfl
        | exact Batteries.OrientedCmp.symm (α := beta) ..
  le_trans := by
    intro x y z h1 h2
    cases x <;> cases y <;> cases z <;>
      first
        | exact fun hx => Ordering.noConfusion hx
        | exact absurd rfl h1
        | exact absurd rfl h2
        | exact ordLeTrans c h1 h2

/-
The AQL condition AST fragment handled by sortOrs and the index planners:
attribute accesses over one variable, scalar and array constants, binary
comparisons, n-ary AND / OR. nullRef stands for a null AstNode pointer
(changeMember stores one when an AND clause had no usable index).
-/

inductive CmpOp where
  | eq
  | ne
  | lt
  | le
  | gt
  | ge
  | inOp
  | nin
deriving DecidableEq, Repr

inductive AstNode where
  | attrAccess (varName : String) (path : List String)
  | constVal (v : VValue)
  | constArray (vals : List VValue)
  | cmp (op : CmpOp) (lhs rhs : AstNode)
  | nAnd (members : List AstNode)
  | nOr (members : List AstNode)
  | nullRef

/-- AstNode::isConstant for the fragment: constants and constant arrays. -/
def AstNode.isConstantNode : AstNode → Bool
  | .constVal _ => true
  | .constArray _ => true
  | _ => false

/-- AstNode::isArray. -/
def AstNode.isArrayNode : AstNode → Bool
  | .constArray _ => true
  | _ => false

/-- AstNode::isAttributeAccessForVariable succeeds exactly on attribute
accesses. -/
def AstNode.isAttrAccessNode : AstNode → Bool
  | .attrAccess _ _ => true
  | _ => false

/-- Members of an OR root. -/
def AstNode.orMembers : AstNode → List AstNode
  | .nOr ms => ms
  | _ => []

/-- The attribute name of an access path as one dotted string (the string
the ConditionPart comparator compares). -/
def joinPath (path : List String) : String := String.intercalate "." path

/-- One ConditionPart: the variable and attribute of the access side, the
comparison operator, the constant side (valueNode), the owning AND clause and
the index handle travelling with it. -/
structure CPart (α : Type) where
  varName : String
  attrName : String
  op : CmpOp
  valueNode : AstNode
  clause : AstNode
  handle : α

/-- The bound carried by a constant operand. -/
def nodeBound : AstNode → Option Bound
  | .constVal v => some (.scalar v)
  | .constArray vs => some (.array vs)
  | _ => none

/-- ConditionPart::lowerBound: the value itself for GT, GE and EQ, the first
member of the (sorted) array for IN, nothing otherwise. -/
def CPart.lowerBound {α : Type} (p : CPart α) : Option Bound :=
  match p.op with
  | .gt | .ge | .eq => nodeBound p.valueNode
  | .inOp =>
    match p.valueNode with
    | .constArray (v :: _) => some (.scalar v)
    | _ => none
  | _ => none

/-- ConditionPart::isLowerInclusive: GE, EQ and IN bound inclusively. -/
def CPart.isLowerIncl {α : Type} (p : CPart α) : Bool :=
  match p.op with
  | .ge | .eq | .inOp => true
  | _ => false

/-- The comparator of the std::sort call in sortOrs, translated clause by
clause: variable name first, attribute name next, then the lower bounds (an
unset bound before a set one, CompareAstNodes inside), inclusive before
exclusive on ties. -/
def partLTsrc {α : Type} (p q : CPart α) : Bool :=
  match compare p.varName q.varName with
  | .lt => true
  | .gt => false
  | .eq =>
    match compare p.attrName q.attrName with
    | .lt => true
    | .gt => false
    | .eq =>
      match p.lowerBound, q.lowerBound with
      | none, some _ => true
      | some _, none => false
      | some a, some b =>
        match cmpBound a b with
        | .lt => true
        | .gt => false
        | .eq => p.isLowerIncl && ! q.isLowerIncl
      | none, none => p.isLowerIncl && ! q.isLowerIncl

/-- The same comparator as a lexicographic composition of lawful
comparators. -/
def partCmp {α : Type} : CPart α → CPart α → Ordering :=
  compareLex (Ordering.byKey (fun r : CPart α => r.varName) compare)
    (compareLex (Ordering.byKey (fun r : CPart α => r.attrName) compare)
      (compareLex (Ordering.byKey CPart.lowerBound (cmpOption cmpBound))
        (Ordering.byKey (fun r : CPart α => ! r.isLowerIncl) compare)))

instance partCmpTrans {α : Type} : Batteries.TransCmp (partCmp (α := α)) :=
  inferInstanceAs (Batteries.TransCmp
    (compareLex (Ordering.byKey (fun r : CPart α => r.varName) compare)
      (compareLex (Ordering.byKey (fun r : CPart α => r.attrName) compare)
        (compareLex (Ordering.byKey CPart.lowerBound (cmpOption cmpBound))
          (Ordering.byKey (fun r : CPart α => ! r.isLowerIncl) compare)))))

theorem boolTailLt (x y : Bool) : (x && ! y) = true ↔ compare (! x) (! y) = .lt := by
  cases x <;> cases y <;> decide

theorem compare_bool_ff : compare false false = Ordering.eq := by decide

theorem compare_bool_ft : compare false true = Ordering.lt := by decide

theorem compare_bool_tf : compare true false = Ordering.gt := by decide

theorem compare_bool_tt : compare true true = Ordering.eq := by decide

theorem partLTsrc_iff {α : Type} (p q : CPart α) :
    partLTsrc p q = true ↔ partCmp p q = .lt := by
  show _ ↔ (compare p.varName q.varName).then
    ((compare p.attrName q.attrName).then
      ((cmpOption cmpBound p.lowerBound q.lowerBound).then
        (compare (! p.isLowerIncl) (! q.isLowerIncl)))) = .lt
  unfold partLTsrc
  cases h1 : compare p.varName q.varName <;>
    cases h2 : compare p.attrName q.attrName <;>
      rcases hb1 : p.lowerBound with _ | a <;>
        rcases hb2 : q.lowerBound with _ | b <;>
          cases hi1 : p.isLowerIncl <;> cases hi2 : q.isLowerIncl
  all_goals try (cases hab : cmpBound a b)
  all_goals
    simp_all [cmpOption, Ordering.then, compare_bool_ff, compare_bool_ft,
      compare_bool_tf, compare_bool_tt]

theorem partLT_asymm {α : Type} {p q : CPart α} (h : partLTsrc p q = true) :
    partLTsrc q p = false := by
  have hlt := (partLTsrc_iff p q).mp h
  have : partCmp q p ≠ .lt := Batteries.TransCmp.lt_asymm hlt
  cases hx : partLTsrc q p
  · rfl
  · exact absurd ((partLTsrc_iff q p).mp hx) this

theorem partLT_trans {α : Type} {p q r : CPart α} (h1 : partLTsrc p q = true)
    (h2 : partLTsrc q r = true) : partLTsrc p r = true :=
  (partLTsrc_iff p r).mpr
    (ordLtTrans partCmp ((partLTsrc_iff p q).mp h1) ((partLTsrc_iff q r).mp h2))

/-
sortOrs (Transaction::sortOrs): canonicalisation of a DNF root over one
variable. The helpers of the AST (ConditionPart, CompareAstNodes,
createNodeUnionizedArray) are not among the sources and are modelled from the
spec; std::sort with the comparator above is modelled as a stable insertion
sort (the spec prescribes a stable sort).
-/

/-- The condition parts one AND clause contributes: nothing unless the clause
is a single comparison other than NE and NIN; a part for an attribute access
on the left with a constant right (arrays only for IN), and a part for a
constant left with an attribute access on the right. -/
def clausePartsOf {α : Type} (variableName : String) (sub : AstNode) (h : α) :
    Option (List (CPart α)) :=
  match sub with
  | .nAnd [operand] =>
    match operand with
    | .cmp op l r =>
      if op = .ne ∨ op = .nin then none
      else
        let leftParts : List (CPart α) :=
          match l with
          | .attrAccess v path =>
            if r.isConstantNode = true ∧ v = variableName ∧
                (op ≠ .inOp ∨ r.isArrayNode = true) then
              [⟨v, joinPath path, op, r, sub, h⟩]
            else []
          | _ => []
        let rightParts : List (CPart α) :=
          match r with
          | .attrAccess v path =>
            if l.isConstantNode = true ∧ v = variableName then
              [⟨v, joinPath path, op, l, sub, h⟩]
            else []
          | _ => []
        some (leftParts ++ rightParts)
    | _ => none
  | _ => none

/-- The part-collection loop over all AND clauses with their handles. -/
def extractParts {α : Type} (variableName : String) :
    List AstNode → List α → Option (List (CPart α))
  | [], [] => some []
  | m :: ms, h :: hs =>
    match clausePartsOf variableName m h, extractParts variableName ms hs with
    | some ps, some rest => some (ps ++ rest)
    | _, _ => none
  | _, _ => none

/-- The adjacent variable-and-attribute agreement check. -/
def uniformChk {α : Type} : List (CPart α) → Bool
  | p :: q :: rest =>
    decide (p.varName = q.varName ∧ p.attrName = q.attrName)
      && uniformChk (q :: rest)
  | _ => true

/-- An IN part whose value is an array (the parts the merge step touches). -/
def isInArrayPart {α : Type} (p : CPart α) : Bool :=
  decide (p.op = CmpOp.inOp) && p.valueNode.isArrayNode

/-- An IN part with an empty array (skipped when the OR is rebuilt). -/
def isEmptyInPart {α : Type} (p : CPart α) : Bool :=
  match p.op, p.valueNode with
  | .inOp, .constArray [] => true
  | _, _ => false

/-- Modelled from the spec: Ast::createNodeUnionizedArray, the sorted
duplicate-free union of two constant arrays. -/
def insertSortedUnique (v : VValue) : List VValue → List VValue
  | [] => [v]
  | w :: ws =>
    match cmpVal v w with
    | .lt => v :: w :: ws
    | .eq => w :: ws
    | .gt => w :: insertSortedUnique v ws

def unionVals (xs ys : List VValue) : List VValue :=
  (xs ++ ys).foldl (fun acc v => insertSortedUnique v acc) []

def unionArrNode : AstNode → AstNode → AstNode
  | .constArray xs, .constArray ys => .constArray (unionVals xs ys)
  | _, _ => .constArray []

/-- changeMember(1, v) on the single comparison of an AND clause: the right
operand is replaced whatever side carried the attribute. -/
def changeCmpRhs : AstNode → AstNode → AstNode
  | .nAnd [.cmp op l _], v => .nAnd [.cmp op l v]
  | c, _ => c

/-- Update of a part when the merge step rewrites its IN array: the valueNode
and the right operand of its clause. -/
def setPartValue {α : Type} (p : CPart α) (v : AstNode) : CPart α :=
  { p with valueNode := v, clause := changeCmpRhs p.clause v }

/-- The rewrite pass of the IN merge: the first IN-array part receives the
merged array, every later one the empty placeholder. -/
def replaceInParts {α : Type} (merged : AstNode) :
    List (CPart α) → Bool → List (CPart α)
  | [], _ => []
  | p :: ps, isFirst =>
    if isInArrayPart p then
      (if isFirst then setPartValue p merged else setPartValue p (.constArray []))
        :: replaceInParts merged ps false
    else p :: replaceInParts merged ps isFirst

/-- The IN-merge loop of sortOrs: with at least two IN-array parts, their
arrays are unionised into the first such part (successive createNodeUnionizedArray
calls fold left) and the later ones become empty placeholders; with fewer,
nothing changes. -/
def mergeIns {α : Type} (parts : List (CPart α)) : List (CPart α) :=
  match parts.filter isInArrayPart with
  | [] => parts
  | [_] => parts
  | firstIn :: restIns =>
    replaceInParts
      ((restIns.map (fun p => p.valueNode)).foldl unionArrNode firstIn.valueNode)
      parts true

/-- Stable insertion of a part: a later element goes after every equivalent
earlier one. -/
def insertPart {α : Type} (x : CPart α) : List (CPart α) → List (CPart α)
  | [] => [x]
  | y :: ys => if partLTsrc x y then x :: y :: ys else y :: insertPart x ys

def insSortAux {α : Type} : List (CPart α) → List (CPart α) → List (CPart α)
  | acc, [] => acc
  | acc, x :: xs => insSortAux (insertPart x acc) xs

/-- The stable sort of the condition parts. -/
def insSort {α : Type} (l : List (CPart α)) : List (CPart α) := insSortAux [] l

/-- Transaction::sortOrs. none models a false return (which leaves root and
handles untouched: every failing check precedes the first mutation); some
carries the rebuilt root and handle vector of a true return. Roots with fewer
than two members are returned unchanged, as is a non-OR root (the callers
only pass DNF roots). -/
def sortOrs {α : Type} (variableName : String) (root : AstNode)
    (handles : List α) : Option (AstNode × List α) :=
  match root with
  | .nOr ms =>
    if ms.length < 2 then some (root, handles)
    else if ms.length ≠ handles.length then none
    else
      match extractParts variableName ms handles with
      | none => none
      | some parts =>
        if parts.length ≠ ms.length then none
        else if uniformChk parts = false then none
        else
          let kept := (insSort (mergeIns parts)).filter (fun p => ! isEmptyInPart p)
          some (.nOr (kept.map (fun p => p.clause)), kept.map (fun p => p.handle))
  | _ => some (root, handles)

/-- The state sortOrs leaves behind: the mutated root and handles of a true
return, the untouched inputs of a false return, with the returned flag. -/
def sortOrsRun {α : Type} (variableName : String) (root : AstNode)
    (handles : List α) : Bool × AstNode × List α :=
  match sortOrs variableName root handles with
  | none => (false, root, handles)
  | some rh => (true, rh.1, rh.2)

/-- A clause of the DNF root that is exactly one binary comparison. -/
def clauseIsSingleComparison : AstNode → Bool
  | .nAnd [.cmp _ _ _] => true
  | _ => false

/-- The operator of a single-comparison clause. -/
def clauseOp : AstNode → Option CmpOp
  | .nAnd [.cmp op _ _] => some op
  | _ => none

/-- The variable and attribute a single-comparison clause references (the
attribute-access side, the other side constant). -/
def refKeyOf : AstNode → Option (String × String)
  | .nAnd [.cmp _ l r] =>
    match l, r with
    | .attrAccess v path, .constVal _ => some (v, joinPath path)
    | .attrAccess v path, .constArray _ => some (v, joinPath path)
    | .constVal _, .attrAccess v path => some (v, joinPath path)
    | .constArray _, .attrAccess v path => some (v, joinPath path)
    | _, _ => none
  | _ => none

/-- The shape invariant of an extracted condition part: its clause is a
single comparison on the bound variable with the constant side recorded as
the valueNode, on the left-attribute or the right-attribute form. -/
def PartInv {α : Type} (variableName : String) (p : CPart α) : Prop :=
  p.varName = variableName ∧ p.op ≠ .ne ∧ p.op ≠ .nin ∧
  p.valueNode.isConstantNode = true ∧
  ((∃ path, p.attrName = joinPath path ∧
      p.clause = .nAnd [.cmp p.op (.attrAccess p.varName path) p.valueNode] ∧
      (p.op ≠ .inOp ∨ p.valueNode.isArrayNode = true))
   ∨ (∃ path, p.attrName = joinPath path ∧
      p.clause = .nAnd [.cmp p.op p.valueNode (.attrAccess p.varName path)]))

/-- A clause corrupted by the IN merge: still a single comparison but with no
attribute-access side left. -/
def CorruptClause (c : AstNode) : Prop :=
  ∃ op l r, op ≠ CmpOp.ne ∧ op ≠ CmpOp.nin ∧ c = .nAnd [.cmp op l r] ∧
    l.isAttrAccessNode = false ∧ r.isAttrAccessNode = false

/-- A part the rebuilt root may carry into a second sortOrs run. -/
def PartOk {α : Type} (variableName : String) (p : CPart α) : Prop :=
  PartInv variableName p ∨ CorruptClause p.clause


theorem clausePartsOf_len {α : Type} {variableName : String} {m : AstNode}
    {h : α} {l : List (CPart α)}
    (he : clausePartsOf variableName m h = some l) : l.length ≤ 1 := by
  rcases m with _ | _ | _ | _ | ⟨ms⟩ | _ | _
  case nAnd =>
    rcases ms with _ | ⟨operand, rest⟩
    · simp [clausePartsOf] at he
    rcases rest with _ | ⟨o2, r2⟩
    case cons => simp [clausePartsOf] at he
    rcases operand with _ | _ | _ | ⟨op, lo, ro⟩ | _ | _ | _
    case cmp =>
      simp only [clausePartsOf] at he
      by_cases hop : op = CmpOp.ne ∨ op = CmpOp.nin
      · rw [if_pos hop] at he
        cases he
      · rw [if_neg hop] at he
        rcases lo <;> rcases ro <;>
          (try split_ifs at he) <;>
            (cases he) <;>
              (try simp_all [AstNode.isConstantNode]) <;>
                (try (split_ifs <;> simp_all))
    all_goals simp [clausePartsOf] at he
  all_goals simp [clausePartsOf] at he

theorem clausePartsOf_shape {α : Type} {variableName : String} {m : AstNode}
    {h : α} {p : CPart α}
    (he : clausePartsOf variableName m h = some [p]) :
    p.clause = m ∧ p.handle = h ∧ PartInv variableName p := by
  rcases m with _ | _ | _ | _ | ⟨ms⟩ | _ | _
  case nAnd =>
    rcases ms with _ | ⟨operand, rest⟩
    · simp [clausePartsOf] at he
    rcases rest with _ | ⟨o2, r2⟩
    case cons => simp [clausePartsOf] at he
    rcases operand with _ | _ | _ | ⟨op, lo, ro⟩ | _ | _ | _
    case cmp =>
      simp only [clausePartsOf] at he
      by_cases hop : op = CmpOp.ne ∨ op = CmpOp.nin
      · rw [if_pos hop] at he
        cases he
      · rw [if_neg hop] at he
        push_neg at hop
        rcases lo <;> rcases ro <;>
          (try split_ifs at he) <;>
            (try simp_all [PartInv, AstNode.isConstantNode, AstNode.isArrayNode]) <;>
              (try (split_ifs at he <;>
                simp_all [PartInv, AstNode.isConstantNode, AstNode.isArrayNode])) <;>
                  (try aesop)
    all_goals simp [clausePartsOf] at he
  all_goals simp [clausePartsOf] at he

theorem clausePartsOf_of_inv {α : Type} {variableName : String} {p : CPart α}
    (h : PartInv variableName p) :
    clausePartsOf variableName p.clause p.handle = some [p] := by
  obtain ⟨hv, hne, hnin, hconst, hcase⟩ := h
  rcases p with ⟨pv, pa, pop, pval, pcl, ph⟩
  simp only at hv hne hnin hconst hcase ⊢
  rcases hcase with ⟨path, hattr, hclause, hin⟩ | ⟨path, hattr, hclause⟩ <;>
    subst hclause <;> subst hattr <;> subst hv <;>
      rcases pval with _ | _ | _ | _ | _ | _ | _ <;>
        simp_all [clausePartsOf, AstNode.isConstantNode, AstNode.isArrayNode]

theorem clausePartsOf_of_corrupt {α : Type} {variableName : String}
    {c : AstNode} (h : CorruptClause c) (hd : α) :
    clausePartsOf variableName c hd = some [] := by
  obtain ⟨op, l, r, hne, hnin, hc, hl, hr⟩ := h
  subst hc
  rcases l <;> rcases r <;>
    simp_all [clausePartsOf, AstNode.isAttrAccessNode]

theorem extractParts_length_le {α : Type} {variableName : String} :
    ∀ {ms : List AstNode} {hs : List α} {parts : List (CPart α)},
    extractParts variableName ms hs = some parts → parts.length ≤ ms.length := by
  intro ms
  induction ms with
  | nil =>
    intro hs parts he
    cases hs with
    | nil => cases he; simp
    | cons hh hs => cases he
  | cons m ms ih =>
    intro hs parts he
    cases hs with
    | nil => cases he
    | cons hh hs =>
      unfold extractParts at he
      rcases hps : clausePartsOf variableName m hh with _ | ps <;> rw [hps] at he
      · cases he
      rcases hrest : extractParts variableName ms hs with _ | rest <;> rw [hrest] at he
      · cases he
      cases he
      have h1 := clausePartsOf_len hps
      have h2 := ih hrest
      simp only [List.length_append, List.length_cons]
      omega

theorem extract_parts_self {α : Type} {variableName : String} :
    ∀ {ms : List AstNode} {hs : List α} {parts : List (CPart α)},
    extractParts variableName ms hs = some parts → parts.length = ms.length →
    ∀ p ∈ parts, clausePartsOf variableName p.clause p.handle = some [p] ∧
      PartInv variableName p := by
  intro ms
  induction ms with
  | nil =>
    intro hs parts he _hl p hp
    cases hs with
    | nil => cases he; cases hp
    | cons hh hs => cases he
  | cons m ms ih =>
    intro hs parts he hl p hp
    cases hs with
    | nil => cases he
    | cons hh hs =>
      unfold extractParts at he
      rcases hps : clausePartsOf variableName m hh with _ | ps <;> rw [hps] at he
      · cases he
      rcases hrest : extractParts variableName ms hs with _ | rest <;> rw [hrest] at he
      · cases he
      cases he
      have h1 := clausePartsOf_len hps
      have h2 := extractParts_length_le hrest
      simp only [List.length_append, List.length_cons] at hl
      have hps1 : ps.length = 1 := by omega
      have hrl : rest.length = ms.length := by omega
      rcases List.length_eq_one.mp hps1 with ⟨p0, hp0⟩
      subst hp0
      rcases List.mem_append.mp hp with hmem | hmem
      · rcases List.mem_singleton.mp hmem with rfl
        have hsh := clausePartsOf_shape hps
        refine ⟨?_, hsh.2.2⟩
        rw [hsh.1, hsh.2.1]
        exact hps
      · exact ih hrest hrl p hmem

theorem extract_again {α : Type} (variableName : String) :
    ∀ kept : List (CPart α),
    (∀ p ∈ kept, clausePartsOf variableName p.clause p.handle = some [p] ∨
      clausePartsOf variableName p.clause p.handle = some []) →
    ∃ partsB, extractParts variableName (kept.map (fun p => p.clause))
        (kept.map (fun p => p.handle)) = some partsB ∧
      (partsB = kept ∨ partsB.length < kept.length) := by
  intro kept
  induction kept with
  | nil =>
    intro _
    exact ⟨[], rfl, Or.inl rfl⟩
  | cons p ps ih =>
    intro hall
    obtain ⟨rest, hrest, hor⟩ := ih (fun q hq => hall q (List.mem_cons_of_mem p hq))
    rcases hall p (List.mem_cons_self p ps) with hp | hp
    · refine ⟨p :: rest, ?_, ?_⟩
      · show extractParts variableName (p.clause :: ps.map (fun q => q.clause))
          (p.handle :: ps.map (fun q => q.handle)) = some (p :: rest)
        unfold extractParts
        rw [hp, hrest]
        rfl
      · rcases hor with rfl | hlt
        · exact Or.inl rfl
        · refine Or.inr ?_
          simp only [List.length_cons]
          omega
    · refine ⟨rest, ?_, ?_⟩
      · show extractParts variableName (p.clause :: ps.map (fun q => q.clause))
          (p.handle :: ps.map (fun q => q.handle)) = some rest
        unfold extractParts
        rw [hp, hrest]
        rfl
      · refine Or.inr ?_
        have : rest.length ≤ ps.length := by
          rcases hor with rfl | hlt
          · exact Nat.le_refl _
          · exact Nat.le_of_lt hlt
        simp only [List.length_cons]
        omega

theorem unionArrNode_isArray (x y : AstNode) :
    ∃ zs, unionArrNode x y = .constArray zs := by
  cases x <;> cases y <;> exact ⟨_, rfl⟩

theorem foldl_unionArr_isArray :
    ∀ (l : List AstNode) (ys : List VValue),
    ∃ zs, l.foldl unionArrNode (.constArray ys) = .constArray zs := by
  intro l
  induction l with
  | nil => exact fun ys => ⟨ys, rfl⟩
  | cons a l ih =>
    intro ys
    show ∃ zs, l.foldl unionArrNode (unionArrNode (.constArray ys) a) = _
    obtain ⟨ws, hw⟩ := unionArrNode_isArray (.constArray ys) a
    rw [hw]
    exact ih ws

theorem isInArrayPart_shape {α : Type} {p : CPart α}
    (h : isInArrayPart p = true) :
    p.op = CmpOp.inOp ∧ ∃ vs, p.valueNode = AstNode.constArray vs := by
  simp only [isInArrayPart, Bool.and_eq_true, decide_eq_true_eq] at h
  obtain ⟨h1, h2⟩ := h
  refine ⟨h1, ?_⟩
  unfold AstNode.isArrayNode at h2
  rcases hv : p.valueNode <;> rw [hv] at h2 <;> first | exact ⟨_, rfl⟩ | cases h2

theorem replaceInParts_mem {α : Type} {merged : AstNode} :
    ∀ {ps : List (CPart α)} {b : Bool} {p2 : CPart α},
    p2 ∈ replaceInParts merged ps b →
    ∃ p ∈ ps, p2 = p ∨ p2 = setPartValue p merged ∨
      p2 = setPartValue p (.constArray []) := by
  intro ps
  induction ps with
  | nil => intro b p2 h; cases h
  | cons p ps ih =>
    intro b p2 h
    unfold replaceInParts at h
    by_cases hin : isInArrayPart p = true
    · rw [if_pos hin] at h
      rcases List.mem_cons.mp h with h | h
      · cases b
        · exact ⟨p, List.mem_cons_self p ps, Or.inr (Or.inr (by simpa using h))⟩
        · exact ⟨p, List.mem_cons_self p ps, Or.inr (Or.inl (by simpa using h))⟩
      · obtain ⟨q, hq, hd⟩ := ih h
        exact ⟨q, List.mem_cons_of_mem p hq, hd⟩
    · rw [if_neg hin] at h
      rcases List.mem_cons.mp h with h | h
      · exact ⟨p, List.mem_cons_self p ps, Or.inl h⟩
      · obtain ⟨q, hq, hd⟩ := ih h
        exact ⟨q, List.mem_cons_of_mem p hq, hd⟩

theorem setPartValue_ok {α : Type} {variableName : String} {p : CPart α}
    (h : PartInv variableName p) (vs : List VValue) :
    PartOk variableName (setPartValue p (.constArray vs)) := by
  obtain ⟨hv, hne, hnin, hconst, hcase⟩ := h
  rcases hcase with ⟨path, hattr, hclause, _hin⟩ | ⟨path, hattr, hclause⟩
  · refine Or.inl ⟨hv, hne, hnin, rfl, Or.inl ⟨path, hattr, ?_, Or.inr rfl⟩⟩
    show changeCmpRhs p.clause _ = _
    rw [hclause]
    rfl
  · refine Or.inr ⟨p.op, p.valueNode, .constArray vs, hne, hnin, ?_, ?_, rfl⟩
    · show changeCmpRhs p.clause _ = _
      rw [hclause]
      rfl
    · unfold AstNode.isConstantNode at hconst
      rcases hval : p.valueNode <;> rw [hval] at hconst <;>
        first | rfl | cases hconst

theorem mergeIns_mem {α : Type} {parts : List (CPart α)} {p2 : CPart α}
    (h : p2 ∈ mergeIns parts) :
    ∃ p ∈ parts, p2 = p ∨ ∃ vs, p2 = setPartValue p (.constArray vs) := by
  unfold mergeIns at h
  rcases hf : parts.filter isInArrayPart with _ | ⟨firstIn, restIns⟩ <;>
    rw [hf] at h
  · exact ⟨p2, h, Or.inl rfl⟩
  rcases restIns with _ | ⟨r2, rest2⟩
  · exact ⟨p2, h, Or.inl rfl⟩
  · have hfmem : firstIn ∈ parts.filter isInArrayPart := by
      rw [hf]; exact List.mem_cons_self _ _
    have hfin : isInArrayPart firstIn = true := List.of_mem_filter hfmem
    obtain ⟨_, vs0, hvs0⟩ := isInArrayPart_shape hfin
    obtain ⟨q, hq, hd⟩ := replaceInParts_mem h
    refine ⟨q, hq, ?_⟩
    rcases hd with rfl | hd | hd
    · exact Or.inl rfl
    · rw [hvs0] at hd
      obtain ⟨zs, hz⟩ := foldl_unionArr_isArray ((r2 :: rest2).map (fun p => p.valueNode)) vs0
      rw [hz] at hd
      exact Or.inr ⟨zs, hd⟩
    · exact Or.inr ⟨[], hd⟩

theorem mergeIns_partOk {α : Type} {variableName : String}
    {parts : List (CPart α)} (hall : ∀ p ∈ parts, PartInv variableName p)
    {p2 : CPart α} (h : p2 ∈ mergeIns parts) : PartOk variableName p2 := by
  obtain ⟨p, hp, hd⟩ := mergeIns_mem h
  rcases hd with he | ⟨vs, he⟩
  · rw [he]
    exact Or.inl (hall p hp)
  · rw [he]
    exact setPartValue_ok (hall p hp) vs

theorem mergeIns_keys {α : Type} {parts : List (CPart α)} {p2 : CPart α}
    (h : p2 ∈ mergeIns parts) :
    ∃ p ∈ parts, p2.varName = p.varName ∧ p2.attrName = p.attrName := by
  obtain ⟨p, hp, hd⟩ := mergeIns_mem h
  rcases hd with he | ⟨vs, he⟩
  · rw [he]
    exact ⟨p, hp, rfl, rfl⟩
  · rw [he]
    exact ⟨p, hp, rfl, rfl⟩

/-- An IN-array part that survives the rebuild (non-empty array). -/
def goodIn {α : Type} (p : CPart α) : Bool := isInArrayPart p && ! isEmptyInPart p

theorem goodIn_imp {α : Type} (p : CPart α) (h : goodIn p = true) :
    isInArrayPart p = true := by
  unfold goodIn at h
  exact (Bool.and_eq_true _ _ ▸ h).1

theorem setPartValue_empty_goodIn {α : Type} (p : CPart α)
    (hin : isInArrayPart p = true) :
    goodIn (setPartValue p (.constArray [])) = false := by
  obtain ⟨hop, vs, hval⟩ := isInArrayPart_shape hin
  unfold goodIn isEmptyInPart setPartValue
  simp [hop]

theorem replaceInParts_goodIn_false {α : Type} (merged : AstNode) :
    ∀ ps : List (CPart α), (replaceInParts merged ps false).filter goodIn = [] := by
  intro ps
  induction ps with
  | nil => rfl
  | cons p ps ih =>
    unfold replaceInParts
    by_cases hin : isInArrayPart p = true
    · rw [if_pos hin, if_neg (by simp)]
      rw [List.filter_cons]
      rw [setPartValue_empty_goodIn p hin]
      simpa using ih
    · rw [if_neg hin]
      rw [List.filter_cons]
      have hg : goodIn p = false := by
        cases hgp : goodIn p
        · rfl
        · exact absurd (goodIn_imp p hgp) hin
      rw [hg]
      simpa using ih

theorem replaceInParts_goodIn_true {α : Type} (merged : AstNode) :
    ∀ ps : List (CPart α),
    ((replaceInParts merged ps true).filter goodIn).length ≤ 1 := by
  intro ps
  induction ps with
  | nil => simp [replaceInParts]
  | cons p ps ih =>
    unfold replaceInParts
    by_cases hin : isInArrayPart p = true
    · rw [if_pos hin, if_pos rfl]
      rw [List.filter_cons]
      cases hgm : goodIn (setPartValue p merged)
      · simp only [Bool.false_eq_true, if_false]
        rw [replaceInParts_goodIn_false]
        simp
      · simp only [if_true]
        rw [List.length_cons, replaceInParts_goodIn_false]
        simp
    · rw [if_neg hin]
      rw [List.filter_cons]
      have hg : goodIn p = false := by
        cases hgp : goodIn p
        · rfl
        · exact absurd (goodIn_imp p hgp) hin
      rw [hg]
      simpa using ih

theorem filter_imp_le {beta : Type} (q r : beta → Bool)
    (himp : ∀ x, q x = true → r x = true) :
    ∀ l : List beta, (l.filter q).length ≤ (l.filter r).length := by
  intro l
  induction l with
  | nil => simp
  | cons a l ih =>
    rw [List.filter_cons, List.filter_cons]
    by_cases hq : q a = true
    · rw [hq, himp a hq]
      simpa using ih
    · have hq0 : q a = false := by
        cases hqa : q a
        · rfl
        · exact absurd hqa hq
      rw [hq0, if_neg (by simp)]
      cases hr : r a
      · rw [if_neg (by simp)]
        exact ih
      · rw [if_pos rfl, List.length_cons]
        omega

theorem mergeIns_goodIn {α : Type} (parts : List (CPart α)) :
    ((mergeIns parts).filter goodIn).length ≤ 1 := by
  have hle := filter_imp_le goodIn isInArrayPart goodIn_imp parts
  unfold mergeIns
  rcases hf : parts.filter isInArrayPart with _ | ⟨f1, rest⟩
  · rw [hf] at hle
    simpa using Nat.le_trans hle (by simp)
  rcases rest with _ | ⟨f2, rest2⟩
  · rw [hf] at hle
    simpa using hle
  · exact replaceInParts_goodIn_true _ parts

/-- The pairwise shape of the sorted part list: no later part strictly below
an earlier one. -/
def partGE {α : Type} (a b : CPart α) : Prop := partLTsrc b a = false

theorem insertPart_perm {α : Type} (x : CPart α) :
    ∀ l : List (CPart α), (insertPart x l).Perm (x :: l) := by
  intro l
  induction l with
  | nil => exact List.Perm.refl _
  | cons y ys ih =>
    unfold insertPart
    by_cases hlt : partLTsrc x y = true
    · rw [if_pos hlt]
    · rw [if_neg hlt]
      exact (List.Perm.cons y ih).trans (List.Perm.swap x y ys)

theorem insSortAux_perm {α : Type} :
    ∀ (l acc : List (CPart α)), (insSortAux acc l).Perm (acc ++ l) := by
  intro l
  induction l with
  | nil => intro acc; simp [insSortAux]
  | cons x xs ih =>
    intro acc
    show (insSortAux (insertPart x acc) xs).Perm _
    refine (ih (insertPart x acc)).trans ?_
    refine (List.Perm.append_right xs (insertPart_perm x acc)).trans ?_
    exact List.perm_middle.symm

theorem insSort_perm {α : Type} (l : List (CPart α)) : (insSort l).Perm l := by
  simpa using insSortAux_perm l []

theorem insertPart_mem {α : Type} {x z : CPart α} {l : List (CPart α)}
    (h : z ∈ insertPart x l) : z = x ∨ z ∈ l :=
  List.mem_cons.mp ((insertPart_perm x l).mem_iff.mp h)

theorem insertPart_pairwise {α : Type} {x : CPart α} {l : List (CPart α)}
    (h : List.Pairwise partGE l) : List.Pairwise partGE (insertPart x l) := by
  induction l with
  | nil => exact List.pairwise_singleton _ _
  | cons y ys ih =>
    rcases List.pairwise_cons.mp h with ⟨hy, hys⟩
    unfold insertPart
    by_cases hlt : partLTsrc x y = true
    · rw [if_pos hlt]
      refine List.Pairwise.cons ?_ h
      intro z hz
      rcases List.mem_cons.mp hz with rfl | hz
      · exact partLT_asymm hlt
      · cases hzx : partLTsrc z x
        · exact hzx
        · have hzy : partLTsrc z y = true := partLT_trans hzx hlt
          have := hy z hz
          unfold partGE at this
          rw [this] at hzy
          cases hzy
    · rw [if_neg hlt]
      refine List.Pairwise.cons ?_ (ih hys)
      intro z hz
      rcases insertPart_mem hz with rfl | hz
      · show partLTsrc z y = false
        cases hxy : partLTsrc z y
        · rfl
        · exact absurd hxy hlt
      · exact hy z hz

theorem insSortAux_pairwise {α : Type} :
    ∀ (l acc : List (CPart α)), List.Pairwise partGE acc →
    List.Pairwise partGE (insSortAux acc l) := by
  intro l
  induction l with
  | nil => intro acc h; exact h
  | cons x xs ih =>
    intro acc h
    exact ih (insertPart x acc) (insertPart_pairwise h)

theorem insSort_pairwise {α : Type} (l : List (CPart α)) :
    List.Pairwise partGE (insSort l) :=
  insSortAux_pairwise l [] (List.Pairwise.nil)

theorem insertPart_append {α : Type} {x : CPart α} :
    ∀ {acc : List (CPart α)}, (∀ y ∈ acc, partLTsrc x y = false) →
    insertPart x acc = acc ++ [x] := by
  intro acc
  induction acc with
  | nil => intro _; rfl
  | cons y ys ih =>
    intro h
    unfold insertPart
    rw [if_neg (by rw [h y (List.mem_cons_self y ys)]; simp)]
    rw [ih (fun z hz => h z (List.mem_cons_of_mem y hz))]
    rfl

theorem insSortAux_sorted_id {α : Type} :
    ∀ (l acc : List (CPart α)), List.Pairwise partGE (acc ++ l) →
    insSortAux acc l = acc ++ l := by
  intro l
  induction l with
  | nil => intro acc _; simp [insSortAux]
  | cons x xs ih =>
    intro acc h
    have hins : insertPart x acc = acc ++ [x] := by
      refine insertPart_append ?_
      intro y hy
      rcases List.pairwise_append.mp h with ⟨_, _, hcross⟩
      exact hcross y hy x (List.mem_cons_self x xs)
    show insSortAux (insertPart x acc) xs = _
    rw [hins]
    have h2 : List.Pairwise partGE ((acc ++ [x]) ++ xs) := by
      rw [List.append_assoc]
      simpa using h
    rw [ih (acc ++ [x]) h2]
    simp

theorem insSort_sorted_id {α : Type} {l : List (CPart α)}
    (h : List.Pairwise partGE l) : insSort l = l := by
  unfold insSort
  rw [insSortAux_sorted_id l [] (by simpa using h)]
  rfl

theorem uniformChk_head {α : Type} :
    ∀ {p : CPart α} {rest : List (CPart α)}, uniformChk (p :: rest) = true →
    ∀ q ∈ rest, p.varName = q.varName ∧ p.attrName = q.attrName := by
  intro p rest
  induction rest generalizing p with
  | nil => intro _ q hq; cases hq
  | cons r rs ih =>
    intro h q hq
    unfold uniformChk at h
    rcases Bool.and_eq_true _ _ ▸ h with ⟨h1, h2⟩
    have hpr := of_decide_eq_true h1
    rcases List.mem_cons.mp hq with rfl | hq
    · exact hpr
    · have := ih h2 q hq
      exact ⟨hpr.1.trans this.1, hpr.2.trans this.2⟩

theorem uniformChk_all {α : Type} {l : List (CPart α)}
    (h : uniformChk l = true) :
    ∀ p ∈ l, ∀ q ∈ l, p.varName = q.varName ∧ p.attrName = q.attrName := by
  cases l with
  | nil => intro p hp; cases hp
  | cons hd tl =>
    have hhd := uniformChk_head h
    intro p hp q hq
    rcases List.mem_cons.mp hp with hp0 | hp1 <;>
      rcases List.mem_cons.mp hq with hq0 | hq1
    · rw [hp0, hq0]; exact ⟨rfl, rfl⟩
    · rw [hp0]; exact hhd q hq1
    · rw [hq0]
      exact ⟨(hhd p hp1).1.symm, (hhd p hp1).2.symm⟩
    · exact ⟨(hhd p hp1).1.symm.trans (hhd q hq1).1,
        (hhd p hp1).2.symm.trans (hhd q hq1).2⟩

theorem uniformChk_of_all {α : Type} :
    ∀ {l : List (CPart α)},
    (∀ p ∈ l, ∀ q ∈ l, p.varName = q.varName ∧ p.attrName = q.attrName) →
    uniformChk l = true := by
  intro l
  induction l with
  | nil => intro _; rfl
  | cons p rest ih =>
    intro h
    cases rest with
    | nil => rfl
    | cons q rs =>
      unfold uniformChk
      rw [Bool.and_eq_true]
      constructor
      · exact decide_eq_true
          (h p (List.mem_cons_self _ _) q (List.mem_cons_of_mem _ (List.mem_cons_self _ _)))
      · exact ih (fun a ha b hb =>
          h a (List.mem_cons_of_mem _ ha) b (List.mem_cons_of_mem _ hb))

theorem mergeIns_id_of_few {α : Type} {l : List (CPart α)}
    (h : (l.filter isInArrayPart).length ≤ 1) : mergeIns l = l := by
  unfold mergeIns
  rcases hf : l.filter isInArrayPart with _ | ⟨f1, rest⟩
  · rfl
  · rcases rest with _ | ⟨f2, rest2⟩
    · rfl
    · rw [hf] at h
      simp only [List.length_cons] at h
      omega

theorem filter_filter_goodIn {α : Type} :
    ∀ l : List (CPart α),
    (l.filter (fun p => ! isEmptyInPart p)).filter isInArrayPart =
      l.filter goodIn := by
  intro l
  induction l with
  | nil => rfl
  | cons p ps ih =>
    rw [List.filter_cons]
    cases he : isEmptyInPart p
    · rw [if_pos (by simp [he])]
      rw [List.filter_cons]
      cases hi : isInArrayPart p
      · rw [if_neg (by simp [hi])]
        rw [List.filter_cons]
        have hg : goodIn p = false := by unfold goodIn; rw [hi]; rfl
        rw [hg, if_neg (by simp)]
        exact ih
      · rw [if_pos (by simp [hi])]
        rw [List.filter_cons]
        have hg : goodIn p = true := by unfold goodIn; rw [hi, he]; rfl
        rw [hg, if_pos rfl, ih]
    · rw [if_neg (by simp [he])]
      rw [List.filter_cons]
      have hg : goodIn p = false := by simp [goodIn, he]
      rw [hg, if_neg (by simp)]
      exact ih

theorem kept_in_le_one {α : Type} (parts : List (CPart α)) :
    ((((insSort (mergeIns parts)).filter (fun p => ! isEmptyInPart p)).filter
      isInArrayPart)).length ≤ 1 := by
  rw [filter_filter_goodIn]
  have hperm := (insSort_perm (mergeIns parts)).filter goodIn
  rw [hperm.length_eq]
  exact mergeIns_goodIn parts

theorem kept_pairwise {α : Type} (parts : List (CPart α)) :
    List.Pairwise partGE
      ((insSort (mergeIns parts)).filter (fun p => ! isEmptyInPart p)) :=
  (insSort_pairwise (mergeIns parts)).sublist (List.filter_sublist _)

theorem kept_filter_id {α : Type} (l : List (CPart α)) :
    (l.filter (fun p => ! isEmptyInPart p)).filter (fun p => ! isEmptyInPart p)
      = l.filter (fun p => ! isEmptyInPart p) := by
  apply List.filter_eq_self.mpr
  intro a ha
  exact (List.mem_filter.mp ha).2

theorem sortOrs_some_inv {α : Type} {variableName : String} {ms : List AstNode}
    {handles : List α} {out : AstNode × List α}
    (hn : ¬ ms.length < 2)
    (h : sortOrs variableName (.nOr ms) handles = some out) :
    ms.length = handles.length ∧
    ∃ parts, extractParts variableName ms handles = some parts ∧
      parts.length = ms.length ∧ uniformChk parts = true ∧
      out = (.nOr (((insSort (mergeIns parts)).filter
              (fun p => ! isEmptyInPart p)).map (fun p => p.clause)),
             ((insSort (mergeIns parts)).filter
              (fun p => ! isEmptyInPart p)).map (fun p => p.handle)) := by
  simp only [sortOrs] at h
  rw [if_neg hn] at h
  split at h
  · exact Option.noConfusion h
  · next hhl =>
    split at h
    · exact Option.noConfusion h
    · next parts hex =>
      split at h
      · exact Option.noConfusion h
      · next hpl =>
        split at h
        · exact Option.noConfusion h
        · next huc =>
          refine ⟨not_ne_iff.mp hhl, parts, hex, not_ne_iff.mp hpl, ?_, ?_⟩
          · cases hu : uniformChk parts
            · exact absurd hu huc
            · rfl
          · simp only [Option.some.injEq] at h
            exact h.symm

theorem extract_parts_clause {α : Type} {variableName : String} :
    ∀ {ms : List AstNode} {hs : List α} {parts : List (CPart α)},
    extractParts variableName ms hs = some parts → parts.length = ms.length →
    ∀ m ∈ ms, ∃ p ∈ parts, p.clause = m ∧ PartInv variableName p := by
  intro ms
  induction ms with
  | nil =>
    intro hs parts he _hl m hm
    cases hm
  | cons m0 ms ih =>
    intro hs parts he hl m hm
    cases hs with
    | nil => cases he
    | cons hh hs =>
      unfold extractParts at he
      rcases hps : clausePartsOf variableName m0 hh with _ | ps <;> rw [hps] at he
      · cases he
      rcases hrest : extractParts variableName ms hs with _ | rest <;> rw [hrest] at he
      · cases he
      cases he
      have h1 := clausePartsOf_len hps
      have h2 := extractParts_length_le hrest
      simp only [List.length_append, List.length_cons] at hl
      have hps1 : ps.length = 1 := by omega
      have hrl : rest.length = ms.length := by omega
      rcases List.length_eq_one.mp hps1 with ⟨p0, hp0⟩
      subst hp0
      rcases List.mem_cons.mp hm with hm0 | hm1
      · have hsh := clausePartsOf_shape hps
        refine ⟨p0, List.mem_append_left _ (List.mem_singleton_self p0), ?_, hsh.2.2⟩
        rw [hsh.1, hm0]
      · obtain ⟨p, hp, hpc, hpi⟩ := ih hrest hrl m hm1
        exact ⟨p, List.mem_append_right _ hp, hpc, hpi⟩

theorem sortOrs_or_small {α : Type} (variableName : String) (ms : List AstNode)
    (handles : List α) (hn : ms.length < 2) :
    sortOrs variableName (.nOr ms) handles = some (.nOr ms, handles) := by
  simp only [sortOrs]
  rw [if_pos hn]

theorem sortOrs_or_eval {α : Type} (variableName : String) (ms : List AstNode)
    (handles : List α) (parts : List (CPart α))
    (hn : ¬ ms.length < 2) (hhl : ms.length = handles.length)
    (hex : extractParts variableName ms handles = some parts) :
    sortOrs variableName (.nOr ms) handles =
      (if parts.length ≠ ms.length then none
       else if uniformChk parts = false then none
       else some (.nOr (((insSort (mergeIns parts)).filter
              (fun p => ! isEmptyInPart p)).map (fun p => p.clause)),
             ((insSort (mergeIns parts)).filter
              (fun p => ! isEmptyInPart p)).map (fun p => p.handle))) := by
  simp only [sortOrs]
  rw [if_neg hn, if_neg (not_ne_iff.mpr hhl), hex]

/-- C7: sortOrs is idempotent on the transaction state: after a successful
run has rewritten the OR root and the handle vector, a second run leaves both
exactly as they are (it either succeeds reproducing them or fails, and a
failing run never mutates). -/
theorem sortOrs_idempotent {α : Type} (variableName : String) (root r2 : AstNode)
    (handles h2 : List α)
    (h : sortOrs variableName root handles = some (r2, h2)) :
    (sortOrsRun variableName r2 h2).2 = (r2, h2) := by
  unfold sortOrsRun
  cases root with
  | nOr ms =>
    by_cases hn : ms.length < 2
    · rw [sortOrs_or_small variableName ms handles hn] at h
      simp only [Option.some.injEq, Prod.mk.injEq] at h
      obtain ⟨rfl, rfl⟩ := h
      rw [sortOrs_or_small variableName ms handles hn]
    · obtain ⟨hhl, parts, hex, hpl, huc, hout⟩ := sortOrs_some_inv hn h
      rw [Prod.mk.injEq] at hout
      obtain ⟨hr2, hh2⟩ := hout
      subst hr2
      subst hh2
      set K := (insSort (mergeIns parts)).filter (fun p => ! isEmptyInPart p) with hK
      have hKok : ∀ p ∈ K, clausePartsOf variableName p.clause p.handle = some [p] ∨
          clausePartsOf variableName p.clause p.handle = some [] := by
        intro p hp
        rw [hK] at hp
        have hpM : p ∈ mergeIns parts :=
          ((insSort_perm (mergeIns parts)).mem_iff).mp (List.mem_of_mem_filter hp)
        rcases mergeIns_partOk (fun q hq => (extract_parts_self hex hpl q hq).2) hpM
          with hInv | hCor
        · exact Or.inl (clausePartsOf_of_inv hInv)
        · exact Or.inr (clausePartsOf_of_corrupt hCor p.handle)
      obtain ⟨partsB, hpB, hBor⟩ := extract_again variableName K hKok
      by_cases hk2 : (K.map (fun p => p.clause)).length < 2
      · rw [sortOrs_or_small variableName _ _ hk2]
      · have hml : (K.map (fun p => p.clause)).length =
            (K.map (fun p => p.handle)).length := by simp
        rcases hBor with hBK | hBlt
        · rw [hBK] at hpB
          by_cases hucK : uniformChk K = false
          · have hres : sortOrs variableName (.nOr (K.map (fun p => p.clause)))
                (K.map (fun p => p.handle)) = none := by
              rw [sortOrs_or_eval variableName _ _ K hk2 hml hpB]
              rw [if_neg (by simp), if_pos hucK]
            rw [hres]
          · have hmK : mergeIns K = K := by
              apply mergeIns_id_of_few
              rw [hK]
              exact kept_in_le_one parts
            have hsK : insSort K = K := by
              apply insSort_sorted_id
              rw [hK]
              exact kept_pairwise parts
            have hfK : K.filter (fun p => ! isEmptyInPart p) = K := by
              rw [hK]
              exact kept_filter_id _
            have hres : sortOrs variableName (.nOr (K.map (fun p => p.clause)))
                (K.map (fun p => p.handle)) =
                some (.nOr (K.map (fun p => p.clause)),
                  K.map (fun p => p.handle)) := by
              rw [sortOrs_or_eval variableName _ _ K hk2 hml hpB]
              rw [if_neg (by simp), if_neg hucK, hmK, hsK, hfK]
            rw [hres]
        · have hres : sortOrs variableName (.nOr (K.map (fun p => p.clause)))
              (K.map (fun p => p.handle)) = none := by
            rw [sortOrs_or_eval variableName _ _ partsB hk2 hml hpB]
            rw [if_pos (by simp only [List.length_map]; omega)]
          rw [hres]
  | attrAccess v path =>
    simp only [sortOrs, Option.some.injEq, Prod.mk.injEq] at h
    obtain ⟨rfl, rfl⟩ := h
    rfl
  | constVal v =>
    simp only [sortOrs, Option.some.injEq, Prod.mk.injEq] at h
    obtain ⟨rfl, rfl⟩ := h
    rfl
  | constArray vs =>
    simp only [sortOrs, Option.some.injEq, Prod.mk.injEq] at h
    obtain ⟨rfl, rfl⟩ := h
    rfl
  | cmp op l r =>
    simp only [sortOrs, Option.some.injEq, Prod.mk.injEq] at h
    obtain ⟨rfl, rfl⟩ := h
    rfl
  | nAnd mss =>
    simp only [sortOrs, Option.some.injEq, Prod.mk.injEq] at h
    obtain ⟨rfl, rfl⟩ := h
    rfl
  | nullRef =>
    simp only [sortOrs, Option.some.injEq, Prod.mk.injEq] at h
    obtain ⟨rfl, rfl⟩ := h
    rfl

def wClause1 : AstNode :=
  .nAnd [.cmp .eq (.attrAccess "x" ["a"]) (.constVal (.vintV 1))]

def wClause2 : AstNode :=
  .nAnd [.cmp .eq (.attrAccess "x" ["a"]) (.constVal (.vintV 2))]

theorem sortOrs_idempotent_witness :
    sortOrs "x" (.nOr [wClause1, wClause2]) (["h1", "h2"] : List String) =
      some (.nOr [wClause1, wClause2], ["h1", "h2"]) ∧
    (sortOrsRun "x" (.nOr [wClause1, wClause2]) ["h1", "h2"]).2 =
      (.nOr [wClause1, wClause2], ["h1", "h2"]) :=
  ⟨rfl, sortOrs_idempotent "x" (.nOr [wClause1, wClause2])
    (.nOr [wClause1, wClause2]) ["h1", "h2"] ["h1", "h2"] rfl⟩

theorem refKeyOf_of_inv {α : Type} {variableName : String} {p : CPart α}
    (hpi : PartInv variableName p) :
    refKeyOf p.clause = some (variableName, p.attrName) := by
  obtain ⟨hv, _hne, _hnin, hconst, hcase⟩ := hpi
  unfold AstNode.isConstantNode at hconst
  rcases hcase with ⟨path, hattr, hclause, _⟩ | ⟨path, hattr, hclause⟩ <;>
    rw [hclause, hattr, ← hv] <;>
      rcases hval : p.valueNode with _ | v | vs | _ | _ | _ | _ <;>
        rw [hval] at hconst <;>
          first | rfl | cases hconst

/-- C6 (amended): for OR roots with at least two members, sortOrs returns
false (and mutates nothing) whenever some clause is not a single binary
comparison, some operator is NE or NOT IN, two clauses reference different
variables or attribute paths, or the member count differs from the handle
count. -/
theorem sortOrs_contract {α : Type} (variableName : String) (ms : List AstNode)
    (handles : List α) (hn : 2 ≤ ms.length)
    (hbad :
      (∃ m ∈ ms, clauseIsSingleComparison m = false) ∨
      (∃ m ∈ ms, clauseOp m = some CmpOp.ne ∨ clauseOp m = some CmpOp.nin) ∨
      (∃ m ∈ ms, ∃ m2 ∈ ms, ∃ k k2, refKeyOf m = some k ∧ refKeyOf m2 = some k2 ∧
        k ≠ k2) ∨
      ms.length ≠ handles.length) :
    sortOrs variableName (.nOr ms) handles = none := by
  rcases hs : sortOrs variableName (.nOr ms) handles with _ | out
  · rfl
  · exfalso
    have hn2 : ¬ ms.length < 2 := by omega
    obtain ⟨hhl, parts, hex, hpl, huc, _⟩ := sortOrs_some_inv hn2 hs
    have hcl := extract_parts_clause hex hpl
    rcases hbad with ⟨m, hm, hbad1⟩ | ⟨m, hm, hbad2⟩ |
      ⟨m, hm, m2, hm2, k, k2, hk, hk2, hkk⟩ | hbad4
    · obtain ⟨p, hp, hpc, hpi⟩ := hcl m hm
      obtain ⟨_, _, _, _, hcase⟩ := hpi
      rcases hcase with ⟨path, _, hclause, _⟩ | ⟨path, _, hclause⟩ <;>
        rw [hpc] at hclause <;> rw [hclause] at hbad1 <;>
          exact Bool.noConfusion hbad1
    · obtain ⟨p, hp, hpc, hpi⟩ := hcl m hm
      obtain ⟨_, hne, hnin, _, hcase⟩ := hpi
      rcases hcase with ⟨path, _, hclause, _⟩ | ⟨path, _, hclause⟩ <;>
        (rw [hpc] at hclause
         rw [hclause] at hbad2
         simp only [clauseOp, Option.some.injEq] at hbad2
         exact hbad2.elim hne hnin)
    · obtain ⟨p, hp, hpc, hpi⟩ := hcl m hm
      obtain ⟨p2, hp2, hpc2, hpi2⟩ := hcl m2 hm2
      have r1 := refKeyOf_of_inv hpi
      have r2 := refKeyOf_of_inv hpi2
      rw [hpc] at r1
      rw [hpc2] at r2
      rw [r1] at hk
      rw [r2] at hk2
      simp only [Option.some.injEq] at hk hk2
      have hkeys := uniformChk_all huc p hp p2 hp2
      apply hkk
      rw [← hk, ← hk2, hkeys.2]
    · exact hbad4 hhl

def cexC6Clause : AstNode :=
  .nAnd [.cmp .ne (.attrAccess "x" ["a"]) (.constVal (.vintV 1))]

/-- C6 counterexample: a one-member OR whose single clause compares with NE is
accepted unchanged by sortOrs (the n < 2 early return fires before any
operator check), although the contract as claimed demands a false return for
NE operators on every root. -/
theorem sortOrs_contract_counterexample :
    clauseOp cexC6Clause = some CmpOp.ne ∧
    sortOrs "x" (.nOr [cexC6Clause]) (["h1"] : List String) =
      some (.nOr [cexC6Clause], ["h1"]) :=
  ⟨rfl, rfl⟩

theorem sortOrs_contract_witness :
    2 ≤ ([cexC6Clause, wClause2] : List AstNode).length ∧
    sortOrs "x" (.nOr [cexC6Clause, wClause2]) (["h1", "h2"] : List String) =
      none :=
  ⟨by decide, sortOrs_contract "x" [cexC6Clause, wClause2] ["h1", "h2"]
    (by decide)
    (Or.inr (Or.inl ⟨cexC6Clause, List.mem_cons_self _ _, Or.inl rfl⟩))⟩

/-- One candidate index of the collection, with its cost oracles for the
fixed clause/sort-condition of one planner call: supportsFilterCondition
returns (estimatedItems, estimatedCost) when the filter is supported,
supportsSortCondition an estimated cost when the sort is supported (its
coveredAttributes out-parameter is never read by the planner), and
specializeCondition rewrites the clause. -/
structure IndexData where
  sparse : Bool
  isSorted : Bool
  fields : List (List String)
  filterSupport : AstNode → Nat → Option (Nat × ℚ)
  sortSupport : Nat → Option ℚ
  specialize : AstNode → AstNode

/-- The sort condition of one planner call. covered models
SortCondition::coveredAttributes over the index fields. -/
structure SortCond where
  isEmpty : Bool
  onlyAttrAccess : Bool
  unidirectional : Bool
  numAttributes : Nat
  covered : List (List String) → Nat

/-- The static indexSupportsSort helper: a sorted index supporting the sort
condition yields its own estimate; otherwise the fallback estimate
itemsInIndex * log2(itemsInIndex) (0 when empty), with std::log2 abstracted
as the oracle log2c. -/
def indexSupportsSort (idx : IndexData) (itemsInIndex : Nat) (log2c : Nat → ℚ) :
    Bool × ℚ :=
  match (if idx.isSorted then idx.sortSupport itemsInIndex else none) with
  | some cost => (true, cost)
  | none =>
    (false, if 0 < itemsInIndex then (itemsInIndex : ℚ) * log2c itemsInIndex else 0)

/-- One iteration of the findIndexHandleForAndNode loop: none when the index
supports neither filter nor sort (the continue), otherwise the support flags
and the total cost filterCost + sortCost. -/
def evalIndex (node : AstNode) (sortCondition : SortCond)
    (itemsInCollection : Nat) (onlyEq : Bool) (log2c : Nat → ℚ)
    (idx : IndexData) : Option (Bool × Bool × ℚ) :=
  let fr := idx.filterSupport node itemsInCollection
  let supportsFilter := fr.isSome
  let filterCost : ℚ :=
    match fr with
    | some (_, estCost) => estCost
    | none => (itemsInCollection : ℚ) * (3 / 2)
  let itemsInIndex : Nat :=
    match fr with
    | some (estItems, _) => estItems
    | none => itemsInCollection
  let isOnlyAttributeAccess := !sortCondition.isEmpty && sortCondition.onlyAttrAccess
  let sr := if sortCondition.unidirectional then
      indexSupportsSort idx itemsInIndex log2c
    else (false, 0)
  let supportsSort := sr.1
  let sortCost : ℚ :=
    if !supportsSort && isOnlyAttributeAccess && onlyEq then
      if sortCondition.covered idx.fields = sortCondition.numAttributes ∧
          (idx.isSorted = true ∨ idx.fields.length = sortCondition.numAttributes)
        then 0
      else sr.2
    else sr.2
  if !supportsFilter && !supportsSort then none
  else some (supportsFilter, supportsSort, filterCost + sortCost)

/-- The best-index fold of findIndexHandleForAndNode: an index is installed
as best when there is no best yet or its total cost is strictly below the
best cost (so ties keep the earlier index). -/
def pickBestAux (ev : IndexData → Option (Bool × Bool × ℚ)) :
    List IndexData → Option (IndexData × Bool × Bool × ℚ) →
    Option (IndexData × Bool × Bool × ℚ)
  | [], best => best
  | idx :: rest, best =>
    match ev idx with
    | none => pickBestAux ev rest best
    | some (sf, ss, cost) =>
      match best with
      | none => pickBestAux ev rest (some (idx, sf, ss, cost))
      | some b =>
        if cost < b.2.2.2 then pickBestAux ev rest (some (idx, sf, ss, cost))
        else pickBestAux ev rest best

/-- Transaction::findIndexHandleForAndNode. Output: the support pair, the
usedIndexes vector (the winner appended on success) and, on success, the
specialised condition and the winner's sparse flag (both out-parameters are
untouched when no index qualifies). -/
def findIndexHandleForAndNode (indexes : List IndexData) (node : AstNode)
    (sortCondition : SortCond) (itemsInCollection : Nat) (onlyEq : Bool)
    (log2c : Nat → ℚ) (usedIndexes : List IndexData) :
    (Bool × Bool) × List IndexData × Option (AstNode × Bool) :=
  match pickBestAux (evalIndex node sortCondition itemsInCollection onlyEq log2c)
      indexes none with
  | none => ((false, false), usedIndexes, none)
  | some (bidx, bsf, bss, _) =>
    ((bsf, bss), usedIndexes ++ [bidx], some (bidx.specialize node, bidx.sparse))

/-- The qualifying indexes of one planner call, each with its support flags
and total cost, in encounter order. -/
def qualIndexes (node : AstNode) (sortCondition : SortCond)
    (itemsInCollection : Nat) (onlyEq : Bool) (log2c : Nat → ℚ)
    (indexes : List IndexData) : List (IndexData × Bool × Bool × ℚ) :=
  indexes.filterMap (fun idx =>
    (evalIndex node sortCondition itemsInCollection onlyEq log2c idx).map
      (fun r => (idx, r)))

/-- Modelled from the spec: the filter cost named by the spec, the index
estimate when the filter is supported and itemsIn x 1.5 otherwise. -/
def specFilterCost (idx : IndexData) (node : AstNode)
    (itemsInCollection : Nat) : ℚ :=
  match idx.filterSupport node itemsInCollection with
  | some (_, estCost) => estCost
  | none => (itemsInCollection : ℚ) * (3 / 2)

/-- Modelled from the spec: whether the index supports the filter. -/
def specSupportsFilter (idx : IndexData) (node : AstNode)
    (itemsInCollection : Nat) : Bool :=
  (idx.filterSupport node itemsInCollection).isSome

/-- The item count left after the filter step. -/
def itemsAfterFilter (idx : IndexData) (node : AstNode)
    (itemsInCollection : Nat) : Nat :=
  match idx.filterSupport node itemsInCollection with
  | some (estItems, _) => estItems
  | none => itemsInCollection

/-- Modelled from the spec: whether the index supports the sort (only a
unidirectional sort condition is ever asked). -/
def specSupportsSort (idx : IndexData) (sortCondition : SortCond)
    (node : AstNode) (itemsInCollection : Nat) (log2c : Nat → ℚ) : Bool :=
  sortCondition.unidirectional &&
    (indexSupportsSort idx (itemsAfterFilter idx node itemsInCollection) log2c).1

/-- The strict-improvement minimum fold the planner loop performs on the
qualifying list. -/
def chooseMin {β : Type} (cost : β → ℚ) : Option β → List β → Option β
  | best, [] => best
  | none, q :: qs => chooseMin cost (some q) qs
  | some b, q :: qs =>
    if cost q < cost b then chooseMin cost (some q) qs
    else chooseMin cost (some b) qs

theorem pickBestAux_eq (ev : IndexData → Option (Bool × Bool × ℚ)) :
    ∀ (l : List IndexData) (best : Option (IndexData × Bool × Bool × ℚ)),
    pickBestAux ev l best =
      chooseMin (fun q => q.2.2.2) best
        (l.filterMap (fun idx => (ev idx).map (fun r => (idx, r)))) := by
  intro l
  induction l with
  | nil => intro best; cases best <;> rfl
  | cons idx rest ih =>
    intro best
    rw [List.filterMap_cons]
    show (match ev idx with
      | none => pickBestAux ev rest best
      | some (sf, ss, cost) =>
        match best with
        | none => pickBestAux ev rest (some (idx, sf, ss, cost))
        | some b =>
          if cost < b.2.2.2 then pickBestAux ev rest (some (idx, sf, ss, cost))
          else pickBestAux ev rest best) = _
    rcases hev : ev idx with _ | ⟨sf, ss, cost⟩
    · exact ih best
    · cases best with
      | none => exact ih _
      | some b =>
        show (if cost < b.2.2.2 then pickBestAux ev rest (some (idx, sf, ss, cost))
            else pickBestAux ev rest (some b)) =
          (if cost < b.2.2.2 then
            chooseMin (fun q => q.2.2.2) (some (idx, sf, ss, cost))
              (rest.filterMap (fun i2 => (ev i2).map (fun r => (i2, r))))
          else chooseMin (fun q => q.2.2.2) (some b)
              (rest.filterMap (fun i2 => (ev i2).map (fun r => (i2, r)))))
        by_cases hlt : cost < b.2.2.2
        · rw [if_pos hlt, if_pos hlt]
          exact ih _
        · rw [if_neg hlt, if_neg hlt]
          exact ih _

theorem chooseMin_acc_some {β : Type} (cost : β → ℚ) :
    ∀ (l : List β) (b : β), ∃ r, chooseMin cost (some b) l = some r := by
  intro l
  induction l with
  | nil => exact fun b => ⟨b, rfl⟩
  | cons q qs ih =>
    intro b
    show ∃ r, (if cost q < cost b then chooseMin cost (some q) qs
      else chooseMin cost (some b) qs) = some r
    by_cases hlt : cost q < cost b
    · rw [if_pos hlt]
      exact ih q
    · rw [if_neg hlt]
      exact ih b

theorem chooseMin_acc_spec {β : Type} (cost : β → ℚ) :
    ∀ (l : List β) (b r : β),
    chooseMin cost (some b) l = some r →
    (r = b ∧ ∀ j (hj : j < l.length), cost b ≤ cost (l.get ⟨j, hj⟩)) ∨
    (∃ i, ∃ hi : i < l.length, l.get ⟨i, hi⟩ = r ∧ cost r < cost b ∧
      (∀ j (hj : j < l.length), cost r ≤ cost (l.get ⟨j, hj⟩)) ∧
      (∀ j (hj : j < l.length), j < i → cost r < cost (l.get ⟨j, hj⟩))) := by
  intro l
  induction l with
  | nil =>
    intro b r h
    simp only [chooseMin, Option.some.injEq] at h
    refine Or.inl ⟨h.symm, ?_⟩
    intro j hj
    exact absurd hj (by simp)
  | cons q qs ih =>
    intro b r h
    rw [show chooseMin cost (some b) (q :: qs) =
      (if cost q < cost b then chooseMin cost (some q) qs
       else chooseMin cost (some b) qs) from rfl] at h
    by_cases hlt : cost q < cost b
    · rw [if_pos hlt] at h
      rcases ih q r h with ⟨rq, hall⟩ | ⟨i, hi, hget, hlt2, hmin, hfirst⟩
      · subst rq
        refine Or.inr ⟨0, by simp, rfl, hlt, ?_, ?_⟩
        · intro j hj
          rcases j with _ | j
          · exact le_refl _
          · exact hall j (Nat.lt_of_succ_lt_succ hj)
        · intro j hj hj0
          exact absurd hj0 (Nat.not_lt_zero j)
      · refine Or.inr ⟨i + 1, Nat.succ_lt_succ hi, hget, lt_trans hlt2 hlt, ?_, ?_⟩
        · intro j hj
          rcases j with _ | j
          · exact le_of_lt hlt2
          · exact hmin j (Nat.lt_of_succ_lt_succ hj)
        · intro j hj hji
          rcases j with _ | j
          · exact hlt2
          · exact hfirst j (Nat.lt_of_succ_lt_succ hj) (Nat.lt_of_succ_lt_succ hji)
    · rw [if_neg hlt] at h
      have hqb : cost b ≤ cost q := not_lt.mp hlt
      rcases ih b r h with ⟨rb, hall⟩ | ⟨i, hi, hget, hlt2, hmin, hfirst⟩
      · refine Or.inl ⟨rb, ?_⟩
        intro j hj
        rcases j with _ | j
        · exact hqb
        · exact hall j (Nat.lt_of_succ_lt_succ hj)
      · refine Or.inr ⟨i + 1, Nat.succ_lt_succ hi, hget, hlt2, ?_, ?_⟩
        · intro j hj
          rcases j with _ | j
          · exact le_of_lt (lt_of_lt_of_le hlt2 hqb)
          · exact hmin j (Nat.lt_of_succ_lt_succ hj)
        · intro j hj hji
          rcases j with _ | j
          · exact lt_of_lt_of_le hlt2 hqb
          · exact hfirst j (Nat.lt_of_succ_lt_succ hj) (Nat.lt_of_succ_lt_succ hji)

theorem chooseMin_none_spec {β : Type} (cost : β → ℚ) (l : List β) (r : β)
    (h : chooseMin cost none l = some r) :
    ∃ i, ∃ hi : i < l.length, l.get ⟨i, hi⟩ = r ∧
      (∀ j (hj : j < l.length), cost r ≤ cost (l.get ⟨j, hj⟩)) ∧
      (∀ j (hj : j < l.length), j < i → cost r < cost (l.get ⟨j, hj⟩)) := by
  cases l with
  | nil => exact Option.noConfusion h
  | cons q qs =>
    rw [show chooseMin cost none (q :: qs) = chooseMin cost (some q) qs from rfl] at h
    rcases chooseMin_acc_spec cost qs q r h with ⟨rq, hall⟩ | ⟨i, hi, hget, hlt2, hmin, hfirst⟩
    · subst rq
      refine ⟨0, by simp, rfl, ?_, ?_⟩
      · intro j hj
        rcases j with _ | j
        · exact le_refl _
        · exact hall j (Nat.lt_of_succ_lt_succ hj)
      · intro j hj hj0
        exact absurd hj0 (Nat.not_lt_zero j)
    · refine ⟨i + 1, Nat.succ_lt_succ hi, hget, ?_, ?_⟩
      · intro j hj
        rcases j with _ | j
        · exact le_of_lt hlt2
        · exact hmin j (Nat.lt_of_succ_lt_succ hj)
      · intro j hj hji
        rcases j with _ | j
        · exact hlt2
        · exact hfirst j (Nat.lt_of_succ_lt_succ hj) (Nat.lt_of_succ_lt_succ hji)

/-- Modelled from the spec: the sort cost, the indexSupportsSort estimate for
a unidirectional condition, zeroed when an all-equality filter covers the
sort attributes. -/
def specSortCost (idx : IndexData) (sortCondition : SortCond) (node : AstNode)
    (itemsInCollection : Nat) (onlyEq : Bool) (log2c : Nat → ℚ) : ℚ :=
  let sr := if sortCondition.unidirectional then
      indexSupportsSort idx (itemsAfterFilter idx node itemsInCollection) log2c
    else (false, 0)
  if !sr.1 && (!sortCondition.isEmpty && sortCondition.onlyAttrAccess) && onlyEq then
    if sortCondition.covered idx.fields = sortCondition.numAttributes ∧
        (idx.isSorted = true ∨ idx.fields.length = sortCondition.numAttributes)
      then 0
    else sr.2
  else sr.2

theorem evalIndex_eq (node : AstNode) (sortCondition : SortCond)
    (itemsInCollection : Nat) (onlyEq : Bool) (log2c : Nat → ℚ)
    (idx : IndexData) :
    evalIndex node sortCondition itemsInCollection onlyEq log2c idx =
      (if (!specSupportsFilter idx node itemsInCollection &&
           !specSupportsSort idx sortCondition node itemsInCollection log2c) = true
       then none
       else some (specSupportsFilter idx node itemsInCollection,
         specSupportsSort idx sortCondition node itemsInCollection log2c,
         specFilterCost idx node itemsInCollection +
           specSortCost idx sortCondition node itemsInCollection onlyEq log2c)) := by
  unfold evalIndex specSupportsFilter specSupportsSort specFilterCost specSortCost
    itemsAfterFilter
  cases hu : sortCondition.unidirectional <;> rfl

theorem evalIndex_some {node : AstNode} {sortCondition : SortCond}
    {itemsInCollection : Nat} {onlyEq : Bool} {log2c : Nat → ℚ}
    {idx : IndexData} {sf ss : Bool} {c : ℚ}
    (h : evalIndex node sortCondition itemsInCollection onlyEq log2c idx =
      some (sf, ss, c)) :
    sf = specSupportsFilter idx node itemsInCollection ∧
    ss = specSupportsSort idx sortCondition node itemsInCollection log2c ∧
    (sf = true ∨ ss = true) ∧
    c = specFilterCost idx node itemsInCollection +
      specSortCost idx sortCondition node itemsInCollection onlyEq log2c := by
  rw [evalIndex_eq] at h
  split at h
  · exact Option.noConfusion h
  · next hcond =>
    simp only [Option.some.injEq, Prod.mk.injEq] at h
    obtain ⟨h1, h2, h3⟩ := h
    refine ⟨h1.symm, h2.symm, ?_, h3.symm⟩
    rw [h1, h2] at hcond
    cases hsf : sf
    · cases hss : ss
      · rw [hsf, hss] at hcond
        exact absurd rfl hcond
      · exact Or.inr rfl
    · exact Or.inl rfl

theorem evalIndex_none (node : AstNode) (sortCondition : SortCond)
    (itemsInCollection : Nat) (onlyEq : Bool) (log2c : Nat → ℚ)
    (idx : IndexData) :
    evalIndex node sortCondition itemsInCollection onlyEq log2c idx = none ↔
      (specSupportsFilter idx node itemsInCollection = false ∧
       specSupportsSort idx sortCondition node itemsInCollection log2c = false) := by
  rw [evalIndex_eq]
  cases hA : specSupportsFilter idx node itemsInCollection <;>
    cases hB : specSupportsSort idx sortCondition node itemsInCollection log2c <;>
      simp

/-- C4: for every AND clause, candidate index list and item count,
findIndexHandleForAndNode costs each index as filterCost + sortCost with
filterCost the index estimate when the filter is supported and itemsIn x 1.5
otherwise, skips exactly the indexes supporting neither filter nor sort,
selects the qualifying index of minimal total cost with ties won by the first
encountered, and returns (false, false) leaving usedIndexes unextended when
no index qualifies. -/
theorem findIndexHandleForAndNode_spec (indexes : List IndexData)
    (node : AstNode) (sortCondition : SortCond) (itemsInCollection : Nat)
    (onlyEq : Bool) (log2c : Nat → ℚ) (usedIndexes : List IndexData) :
    (qualIndexes node sortCondition itemsInCollection onlyEq log2c indexes = [] →
      findIndexHandleForAndNode indexes node sortCondition itemsInCollection
        onlyEq log2c usedIndexes = ((false, false), usedIndexes, none)) ∧
    (∀ idx : IndexData, ∀ sf ss : Bool, ∀ c : ℚ,
      evalIndex node sortCondition itemsInCollection onlyEq log2c idx =
        some (sf, ss, c) →
      sf = specSupportsFilter idx node itemsInCollection ∧
      ss = specSupportsSort idx sortCondition node itemsInCollection log2c ∧
      (sf = true ∨ ss = true) ∧
      c = specFilterCost idx node itemsInCollection +
        specSortCost idx sortCondition node itemsInCollection onlyEq log2c) ∧
    (∀ idx : IndexData,
      evalIndex node sortCondition itemsInCollection onlyEq log2c idx = none ↔
        (specSupportsFilter idx node itemsInCollection = false ∧
         specSupportsSort idx sortCondition node itemsInCollection log2c = false)) ∧
    (qualIndexes node sortCondition itemsInCollection onlyEq log2c indexes ≠ [] →
      ∃ b : IndexData × Bool × Bool × ℚ, ∃ i : Nat,
      ∃ hi : i < (qualIndexes node sortCondition itemsInCollection onlyEq log2c
          indexes).length,
        (qualIndexes node sortCondition itemsInCollection onlyEq log2c
          indexes).get ⟨i, hi⟩ = b ∧
        findIndexHandleForAndNode indexes node sortCondition itemsInCollection
          onlyEq log2c usedIndexes =
          ((b.2.1, b.2.2.1), usedIndexes ++ [b.1],
            some (b.1.specialize node, b.1.sparse)) ∧
        (∀ j, ∀ hj : j < (qualIndexes node sortCondition itemsInCollection onlyEq
            log2c indexes).length,
          b.2.2.2 ≤ ((qualIndexes node sortCondition itemsInCollection onlyEq
            log2c indexes).get ⟨j, hj⟩).2.2.2) ∧
        (∀ j, ∀ hj : j < (qualIndexes node sortCondition itemsInCollection onlyEq
            log2c indexes).length, j < i →
          b.2.2.2 < ((qualIndexes node sortCondition itemsInCollection onlyEq
            log2c indexes).get ⟨j, hj⟩).2.2.2)) := by
  have hpq : pickBestAux
      (evalIndex node sortCondition itemsInCollection onlyEq log2c) indexes none =
      chooseMin (fun q => q.2.2.2) none
        (qualIndexes node sortCondition itemsInCollection onlyEq log2c indexes) :=
    pickBestAux_eq _ indexes none
  refine ⟨?_, ?_, ?_, ?_⟩
  · intro hq
    unfold findIndexHandleForAndNode
    rw [hpq, hq]
    rfl
  · intro idx sf ss c h
    exact evalIndex_some h
  · intro idx
    exact evalIndex_none node sortCondition itemsInCollection onlyEq log2c idx
  · intro hne
    rcases hcm : chooseMin (fun q => q.2.2.2) none
        (qualIndexes node sortCondition itemsInCollection onlyEq log2c indexes)
      with _ | r
    · exfalso
      rcases hql : qualIndexes node sortCondition itemsInCollection onlyEq log2c
          indexes with _ | ⟨q, qs⟩
      · exact hne hql
      · rw [hql] at hcm
        obtain ⟨r0, hr0⟩ := chooseMin_acc_some (fun q => q.2.2.2) qs q
        rw [show chooseMin (fun q => q.2.2.2) none (q :: qs) =
          chooseMin (fun q => q.2.2.2) (some q) qs from rfl, hr0] at hcm
        exact Option.noConfusion hcm
    · obtain ⟨i, hi, hget, hmin, hfirst⟩ := chooseMin_none_spec _ _ _ hcm
      obtain ⟨bidx, bsf, bss, bc⟩ := r
      refine ⟨(bidx, bsf, bss, bc), i, hi, hget, ?_, hmin, hfirst⟩
      unfold findIndexHandleForAndNode
      rw [hpq, hcm]

def wSortCond : SortCond := ⟨true, false, false, 0, fun _ => 0⟩

def wIdxNone : IndexData :=
  ⟨false, false, [], fun _ _ => none, fun _ => none, fun n => n⟩

theorem findIndexHandleForAndNode_spec_witness :
    qualIndexes AstNode.nullRef wSortCond 10 false (fun _ => 0) [wIdxNone] = [] ∧
    findIndexHandleForAndNode [wIdxNone] AstNode.nullRef wSortCond 10 false
      (fun _ => 0) [] = ((false, false), [], none) :=
  ⟨rfl, (findIndexHandleForAndNode_spec [wIdxNone] AstNode.nullRef wSortCond 10
    false (fun _ => 0) []).1 rfl⟩

/-- The clause loop of getBestIndexHandlesForFilterCondition. State: pending
members, usedIndexes, the isSparse out-variable (persisting across
iterations), the two aggregate flags and the already-rewritten members.
error is the sort-only early return (pair, usedIndexes, root members); ok
carries the loop-end state. -/
def getBestLoop (indexes : List IndexData) (sortCondition : SortCond)
    (itemsInCollection : Nat) (onlyEq : AstNode → Bool) (log2c : Nat → ℚ) :
    List AstNode → List IndexData → Bool → Bool → Bool → List AstNode →
    Except ((Bool × Bool) × List IndexData × List AstNode)
      (Bool × Bool × List IndexData × List AstNode × Bool)
  | [], used, isSparse, cf, cs, done => .ok (cf, cs, used, done, isSparse)
  | m :: rest, used, isSparse, cf, cs, done =>
    let res := findIndexHandleForAndNode indexes m sortCondition itemsInCollection
      (onlyEq m) log2c used
    let used2 := res.2.1
    let specialized : AstNode :=
      match res.2.2 with
      | some sc => sc.1
      | none => .nullRef
    let isSparse2 :=
      match res.2.2 with
      | some sc => sc.2
      | none => isSparse
    if res.1.2 && !res.1.1 then
      let kept0 := if 1 < used2.length then
          (match used2.getLast? with
           | some x => [x]
           | none => [])
        else used2
      let kept := if isSparse2 = true then [] else kept0
      .error ((false, !kept.isEmpty), kept, done ++ m :: rest)
    else
      getBestLoop indexes sortCondition itemsInCollection onlyEq log2c rest used2
        isSparse2 (cf && res.1.1) (cs || res.1.2) (done ++ [specialized])

/-- Transaction::getBestIndexHandlesForFilterCondition: run the clause loop
(canUseForFilter starts as numMembers > 0, isSparse as false) and, when every
clause supports filtering, normalise the OR root via sortOrs. Output: the
flag pair, usedIndexes, the root and the isSorted out-variable. -/
def getBestIndexHandlesForFilterCondition (variableName : String)
    (indexes : List IndexData) (sortCondition : SortCond)
    (itemsInCollection : Nat) (onlyEq : AstNode → Bool) (log2c : Nat → ℚ)
    (rootMembers : List AstNode) (usedIndexes : List IndexData) :
    (Bool × Bool) × List IndexData × AstNode × Bool :=
  match getBestLoop indexes sortCondition itemsInCollection onlyEq log2c
      rootMembers usedIndexes false (decide (0 < rootMembers.length)) false [] with
  | .error (pair, used, mems) => (pair, used, .nOr mems, false)
  | .ok (cf, cs, used, mems, _) =>
    if cf then
      let r := sortOrsRun variableName (.nOr mems) used
      ((cf, cs), r.2.2, r.2.1, r.1)
    else ((cf, cs), used, .nOr mems, false)

theorem findIndexHandle_false_true_inv {indexes : List IndexData}
    {node : AstNode} {sortCondition : SortCond} {itemsInCollection : Nat}
    {onlyEq : Bool} {log2c : Nat → ℚ} {used u2 : List IndexData}
    {osp : Option (AstNode × Bool)}
    (h : findIndexHandleForAndNode indexes node sortCondition itemsInCollection
      onlyEq log2c used = ((false, true), u2, osp)) :
    ∃ bidx : IndexData, ∃ bc : ℚ, u2 = used ++ [bidx] ∧
      osp = some (bidx.specialize node, bidx.sparse) ∧
      pickBestAux (evalIndex node sortCondition itemsInCollection onlyEq log2c)
        indexes none = some (bidx, false, true, bc) := by
  unfold findIndexHandleForAndNode at h
  split at h
  · exfalso
    simp only [Prod.mk.injEq] at h
    exact Bool.noConfusion h.1.2
  · next bidx bsf bss bc heq =>
    simp only [Prod.mk.injEq] at h
    obtain ⟨⟨hsf, hss⟩, hu, ho⟩ := h
    subst hsf
    subst hss
    exact ⟨bidx, bc, hu.symm, ho.symm, heq⟩

/-- C3 (amended): when the AND planner answers (supportsFilter = false,
supportsSort = true) for a clause, the loop discards every previously chosen
handle, keeps only that clause's freshly appended sort index, discards it too
when it is sparse, and returns (false, usedIndexes nonempty); in particular
this early return never leaves a single sparse index. (The no-single-sparse
guarantee holds only for this return: a later clause with no qualifying index
can leave an earlier sparse handle as sole output with canUseForFilter
false.) -/
theorem getBest_escape_spec (indexes : List IndexData) (sortCondition : SortCond)
    (itemsInCollection : Nat) (onlyEq : AstNode → Bool) (log2c : Nat → ℚ)
    (m : AstNode) (rest : List AstNode) (used u2 : List IndexData)
    (osp : Option (AstNode × Bool)) (isSparse cf cs : Bool) (done : List AstNode)
    (h : findIndexHandleForAndNode indexes m sortCondition itemsInCollection
      (onlyEq m) log2c used = ((false, true), u2, osp)) :
    ∃ bidx : IndexData, u2 = used ++ [bidx] ∧
      getBestLoop indexes sortCondition itemsInCollection onlyEq log2c
        (m :: rest) used isSparse cf cs done =
        .error ((false, !bidx.sparse),
          (if bidx.sparse = true then [] else [bidx]), done ++ m :: rest) ∧
      (∀ one : IndexData,
        (if bidx.sparse = true then ([] : List IndexData) else [bidx]) = [one] →
        one.sparse = false) := by
  obtain ⟨bidx, bc, hu, ho, _⟩ := findIndexHandle_false_true_inv h
  refine ⟨bidx, hu, ?_, ?_⟩
  · simp only [getBestLoop]
    rw [h, hu, ho]
    dsimp only
    rw [if_pos (show (true && !false) = true from rfl)]
    have hk0 : (if 1 < (used ++ [bidx]).length then
        (match (used ++ [bidx]).getLast? with
         | some x => [x]
         | none => ([] : List IndexData))
      else used ++ [bidx]) = [bidx] := by
      cases used with
      | nil => rfl
      | cons u us =>
        rw [if_pos (by simp), List.getLast?_concat]
    rw [hk0]
    cases hsp : bidx.sparse <;> rfl
  · intro one hone
    cases hsp : bidx.sparse
    · rw [if_neg (by simp [hsp])] at hone
      rw [List.cons.injEq] at hone
      rw [← hone.1]
      exact hsp
    · rw [if_pos (by simp [hsp])] at hone
      exact List.noConfusion hone

def cexClause0 : AstNode :=
  .nAnd [.cmp .eq (.attrAccess "x" ["a"]) (.constVal (.vintV 1))]

def cexClause1 : AstNode :=
  .nAnd [.cmp .lt (.attrAccess "x" ["b"]) (.constVal (.vintV 2))]

/-- A sparse index qualifying (filter-only) for the equality clause and for
nothing else. -/
def cexSparseIdx : IndexData :=
  ⟨true, false, [],
    fun n _ =>
      match n with
      | .nAnd [.cmp .eq _ _] => some (10, 1)
      | _ => none,
    fun _ => none, fun n => n⟩

def cexSortCond : SortCond := ⟨true, false, false, 0, fun _ => 0⟩

/-- C3 counterexample: with a sparse index qualifying only for the first
clause, the second clause qualifies no index, the planner answers
(false, false) for it (not the sort-only escape), and the function returns
canUseForFilter = false while usedIndexes is exactly one sparse handle —
the claimed invariant fails off the escape path. -/
theorem getBest_sparse_counterexample :
    ((getBestIndexHandlesForFilterCondition "x" [cexSparseIdx] cexSortCond 100
        (fun _ => false) (fun _ => 0) [cexClause0, cexClause1] []).1).1 = false ∧
    ((getBestIndexHandlesForFilterCondition "x" [cexSparseIdx] cexSortCond 100
        (fun _ => false) (fun _ => 0) [cexClause0, cexClause1] []).2.1).map
      (fun i => i.sparse) = [true] :=
  ⟨rfl, rfl⟩

def wEscapeIdx : IndexData :=
  ⟨true, true, [], fun _ _ => none, fun _ => some 5, fun n => n⟩

def wEscOther : IndexData :=
  ⟨false, false, [], fun _ _ => none, fun _ => none, fun n => n⟩

def wEscSortCond : SortCond := ⟨false, true, true, 1, fun _ => 0⟩

theorem getBest_escape_spec_witness :
    ∃ bidx : IndexData,
      ([wEscOther, wEscapeIdx] : List IndexData) = [wEscOther] ++ [bidx] ∧
      getBestLoop [wEscapeIdx] wEscSortCond 10 (fun _ => false) (fun _ => 0)
        [AstNode.nullRef] [wEscOther] false true false [] =
        .error ((false, !bidx.sparse),
          (if bidx.sparse = true then [] else [bidx]),
          [] ++ AstNode.nullRef :: []) ∧
      (∀ one : IndexData,
        (if bidx.sparse = true then ([] : List IndexData) else [bidx]) = [one] →
        one.sparse = false) :=
  getBest_escape_spec [wEscapeIdx] wEscSortCond 10 (fun _ => false) (fun _ => 0)
    AstNode.nullRef [] [wEscOther] [wEscOther, wEscapeIdx]
    (some (AstNode.nullRef, true)) false true false [] rfl
